import Mathlib

/-!
Verification development for the `avl_tree.hpp` / `interval_tree.hpp` pair:
a height-balanced binary search tree (AVL discipline) with pluggable
rotation/updater policies, and the interval-tree specialization that keeps
per-subtree `min`/`max` annotations and answers overlap queries with a
pruned depth-first traversal over an explicit bounded stack.

The embedding instantiates the templates at `Key = int`, `Data = int`
(`Compare = std::less<int>`), so keys, values and balance factors are `Int`.
Pointer structure is rendered as an inductive tree; the sentinel header node
is modelled where it is observable (first insertion into the interval tree,
copy construction, end of traversals).
-/

namespace AvlInterval

/-- Node skeleton of `_avl_tree_node_base`: left child, payload (the node's
`_value`), the signed `_balance` field, and right child.  Parent pointers are
implicit in the nesting; the two instantiations below supply the payload type
used by `avl_tree` and by `interval_tree`. -/
inductive GT (α : Type) : Type where
  | nil : GT α
  | node (l : GT α) (e : α) (b : Int) (r : GT α) : GT α
deriving DecidableEq, Repr

variable {α : Type}

/-- Number of nodes of a subtree. -/
def size : GT α → Nat
  | .nil => 0
  | .node l _ _ r => size l + size r + 1

/-- Height counted in nodes: `hN .nil = 0`, a single node has `hN = 1`
(so `hN t = ` edge-height `+ 1` for a non-empty tree). -/
def hN : GT α → Nat
  | .nil => 0
  | .node l _ _ r => max (hN l) (hN r) + 1

/-- In-order list of payloads (what iterating from `begin()` to `end()`
visits, node by node). -/
def elemsG : GT α → List α
  | .nil => []
  | .node l e _ r => elemsG l ++ e :: elemsG r

/-- Payload stored at the root of a subtree, if any. -/
def rootE : GT α → Option α
  | .nil => none
  | .node _ e _ _ => some e

/-- Source `AVL::rotation::left` (avl_tree.hpp 152-171): promote `x->_right`
over `x`, reparenting the displaced grandchild subtree; balance fields and
payloads are untouched.  When `x->_right` is null the source would dereference
a null pointer; that state is unreachable from `_rebalance` and the input is
returned unchanged. -/
def rotL : GT α → GT α
  | .node l e b (.node rl f c rr) => .node (.node l e b rl) f c rr
  | t => t

/-- Source `AVL::rotation::right` (avl_tree.hpp 173-192), mirror of `rotL`. -/
def rotR : GT α → GT α
  | .node (.node ll f c lr) e b r => .node ll f c (.node lr e b r)
  | t => t

/-- Source `avl_tree::_rebalance` (avl_tree.hpp 428-498), parametrized by the
`Rotation` policy exactly as the template is.  Balance assignments happen on
the pre-rotation tree, then the policy rotations run (`Rotation::right(right)`
then `Rotation::left(unbalanced)` in the double case, and mirrored).  The
result is paired with the number of `Rotation` calls performed.  Cases `1`,
`-1`, `0` of the outer switch just break.  The branches where `right` /
`right->_left` (resp. mirrored) are null would dereference null pointers in
the source; they are unreachable from insertion and return the input. -/
def rebalG (ro_l ro_r : GT α → GT α) : GT α → GT α × Nat
  | .node l e b r =>
    if b = 2 then
      match r with
      | .node rl2 f c rr2 =>
        if c = 1 then
          (ro_l (.node l e 0 (.node rl2 f 0 rr2)), 1)
        else
          match rl2 with
          | .node a w wb d =>
            let p : Int × Int :=
              if wb = 1 then (-1, 0)
              else if wb = 0 then (0, 0)
              else if wb = -1 then (0, 1)
              else (b, c)
            (ro_l (.node l e p.1 (ro_r (.node (.node a w 0 d) f p.2 rr2))), 2)
          | .nil => (.node l e b r, 0)
      | .nil => (.node l e b r, 0)
    else if b = -2 then
      match l with
      | .node ll f c lr =>
        if c = -1 then
          (ro_r (.node (.node ll f 0 lr) e 0 r), 1)
        else
          match lr with
          | .node a w wb d =>
            let p : Int × Int :=
              if wb = 1 then (0, -1)
              else if wb = 0 then (0, 0)
              else if wb = -1 then (1, 0)
              else (b, c)
            (ro_r (.node (ro_l (.node ll f p.2 (.node a w 0 d))) e p.1 r), 2)
          | .nil => (.node l e b r, 0)
      | .nil => (.node l e b r, 0)
    else (.node l e b r, 0)
  | .nil => (.nil, 0)

/-- Depth (0 = root) of the deepest node on the search path of `k` whose
balance factor is non-zero: the `unbalanced` candidate recorded by the descent
loop of `avl_tree::insert` (avl_tree.hpp 316-322, `if (x->_balance != 0)
unbalanced = x`).  `none` models `unbalanced == _end()` (the header). -/
def unbalDepth (key : α → Int) : GT α → Int → Option Nat
  | .nil, _ => none
  | .node l e b r, k =>
    let sub := if k < key e then unbalDepth key l k else unbalDepth key r k
    match sub with
    | some d => some (d + 1)
    | none => if b ≠ 0 then some 0 else none

/-- Duplicate detection of `avl_tree::insert` (avl_tree.hpp 323-332).  The
descent goes left on `compare(k, key x)` and right otherwise; `acc` carries the
payload of the deepest right-turn ancestor, which is exactly the node the
predecessor step `--j` lands on (and equals `y` itself when the last step went
right).  At the end, `j == begin()` corresponds to `acc = none` (insert), and
otherwise the entry is a duplicate iff `!compare(key j, k)`.  Returns the
duplicate's payload (the returned iterator's entry) or `none`. -/
def dupFind (key : α → Int) : GT α → Int → Option α → Option α
  | .nil, k, acc =>
    match acc with
    | none => none
    | some a => if key a < k then none else some a
  | .node l e _ r, k, acc =>
    if k < key e then dupFind key l k acc else dupFind key r k (some e)

/-- Leaf creation and linking of `avl_tree::_insert` (avl_tree.hpp 392-415):
a fresh node with balance 0 and null children, attached on the side the
descent ended on. -/
def attach (key : α → Int) (x : α) : GT α → GT α
  | .nil => .node .nil x 0 .nil
  | .node l e b r =>
    if key x < key e then .node (attach key x l) e b r
    else .node l e b (attach key x r)

/-- Updater walk (`AVL::updater::update`, avl_tree.hpp 195-211, and
`Interval::updater::update`, interval_tree.hpp 300-325) rendered top-down
along the search path of `k` in the tree that already contains the new leaf:
the recursion computes the updated path child first, exactly matching the
bottom-up pointer walk.  `cd` is the number of remaining steps down to the
`unbalanced` candidate (`none` = header): a node's balance is adjusted
(decremented for a left step, incremented for a right step) iff it lies at or below the
candidate, which the walk reaches inclusively before stopping.  `comb c p`
is the payload recombination `p.max = max(c.max, p.max)` / min applied at
every ancestor up to the root (the interval policy); the plain AVL policy
leaves payloads unchanged.  The recursion stops at the fresh leaf (the only
path node whose key equals `k`), whose parent is where the source walk
starts. -/
def retrace (key : α → Int) (comb : α → α → α) : GT α → Int → Option Nat → GT α
  | .nil, _, _ => .nil
  | .node l e b r, k, cd =>
    if k < key e then
      let l2 := retrace key comb l k (cd.map Nat.pred)
      let e2 := match rootE l2 with
        | some c => comb c e
        | none => e
      let b2 := if cd = none ∨ cd = some 0 then b - 1 else b
      .node l2 e2 b2 r
    else if key e < k then
      let r2 := retrace key comb r k (cd.map Nat.pred)
      let e2 := match rootE r2 with
        | some c => comb c e
        | none => e
      let b2 := if cd = none ∨ cd = some 0 then b + 1 else b
      .node l e2 b2 r2
    else .node l e b r

/-- Apply `_rebalance` at the recorded candidate, found `d` steps down the
search path of `k` (the source holds a pointer to it; here we descend by the
same comparisons). -/
def rebalAt (ro_l ro_r : GT α → GT α) (key : α → Int) :
    GT α → Int → Nat → GT α × Nat
  | t, _, 0 => rebalG ro_l ro_r t
  | .nil, _, _ + 1 => (.nil, 0)
  | .node l e b r, k, d + 1 =>
    if k < key e then
      let p := rebalAt ro_l ro_r key l k d
      (.node p.1 e b r, p.2)
    else
      let p := rebalAt ro_l ro_r key r k d
      (.node l e b p.1, p.2)

/-- Source `avl_tree::insert` (avl_tree.hpp 310-333) composed with `_insert`
(392-426): duplicate check via the predecessor comparison, then leaf attach,
updater walk, and `_rebalance` at the candidate when `unbalanced != _end()`.
Instantiating `comb`, `ro_l`, `ro_r`, `hdrE` recovers the two template
instantiations (plain AVL, and the interval policies).  For the very first
insertion the new leaf's parent is the header itself, so the updater walk
visits the header before reaching the root: the root payload becomes
`comb (comb x hdrE) x`, where `hdrE` is the header's value-initialized
payload (the walk also decrements the header's unused balance field, which is
not modelled).  Returns (tree, (returned entry, inserted flag), number of
rotations performed). -/
def insertG (key : α → Int) (comb : α → α → α) (ro_l ro_r : GT α → GT α)
    (hdrE : α) (t : GT α) (x : α) : GT α × (α × Bool) × Nat :=
  match t with
  | .nil => (.node .nil (comb (comb x hdrE) x) 0 .nil, (x, true), 0)
  | tn =>
    match dupFind key tn (key x) none with
    | some e => (tn, (e, false), 0)
    | none =>
      let cd := unbalDepth key tn (key x)
      let t1 := retrace key comb (attach key x tn) (key x) cd
      match cd with
      | none => (t1, (x, true), 0)
      | some d =>
        let p := rebalAt ro_l ro_r key t1 (key x) d
        (p.1, (x, true), p.2)

/-! ## The plain AVL instantiation (`avl_tree<int, int>`) -/

/-- Payload of an `avl_tree<int,int>` node: the `std::pair<const Key, Data>`. -/
abbrev AE := Int × Int

/-- Ordering key of the AVL tree: `_value.first`. -/
def keyA (e : AE) : Int := e.1

/-- The plain AVL updater does not touch payloads. -/
def combA (_c p : AE) : AE := p

/-- `avl_tree<int,int>::insert` with the default `AVL::rotation` /
`AVL::updater` policies. -/
def insertA (t : GT AE) (x : AE) : GT AE × (AE × Bool) × Nat :=
  insertG keyA combA rotL rotR (0, 0) t x

/-- Tree built by a sequence of insertions into an initially empty
`avl_tree<int,int>`. -/
def buildA (xs : List AE) : GT AE :=
  xs.foldl (fun t x => (insertA t x).1) .nil

/-- Balance field stored at the root (0 for the empty tree). -/
def balOf : GT α → Int
  | .nil => 0
  | .node _ _ b _ => b

/-- The AVL invariant as the claim states it: at every node the stored
balance factor equals height(right) - height(left) and lies in {-1, 0, 1}. -/
def AvlOk : GT α → Prop
  | .nil => True
  | .node l _ b r =>
    AvlOk l ∧ AvlOk r ∧ b = (hN r : Int) - (hN l : Int) ∧ -1 ≤ b ∧ b ≤ 1

/-- Proof device: a recursive rendering of the very same insertion algorithm
(attach, candidate-relative balance updates widened to a grow flag, the
`_rebalance` fixup at the candidate), proved extensionally equal to the
faithful path-based `insertG` composite in `insertPath_eq_insRA` below.  The
grow flag is true exactly when the subtree height increased, which happens
exactly when no candidate was recorded inside the subtree. -/
def insRA (t : GT AE) (k v : Int) : GT AE × Bool :=
  match t with
  | .nil => (.node .nil (k, v) 0 .nil, true)
  | .node l e b r =>
    if k < keyA e then
      let p := insRA l k v
      if p.2 then ((rebalG rotL rotR (.node p.1 e (b - 1) r)).1, decide (b = 0))
      else (.node p.1 e b r, false)
    else if keyA e < k then
      let p := insRA r k v
      if p.2 then ((rebalG rotL rotR (.node l e (b + 1) p.1)).1, decide (b = 0))
      else (.node l e b p.1, false)
    else (.node l e b r, false)

/-! ## The interval-tree instantiation -/

/-- Payload of an interval-tree node: the interval `(lo, hi)` (the pair key),
and the mapped `interval_tree_value`: subtree annotations `mx` (max high
endpoint) / `mn` (min low endpoint) and the user data. -/
structure IE where
  lo : Int
  hi : Int
  mx : Int
  mn : Int
  dat : Int
deriving DecidableEq, Repr

/-- `Interval_Compare` (interval_tree.hpp 34-44) orders by the low endpoint
only. -/
def keyI (e : IE) : Int := e.lo

/-- One step of `Interval::updater::update` at an ancestor `p` with updated
path child `c`: `p.max = max(c.max, p.max)`, `p.min = min(c.min, p.min)`
(interval_tree.hpp 316-317). -/
def combI (c p : IE) : IE := ⟨p.lo, p.hi, max c.mx p.mx, min c.mn p.mn, p.dat⟩

/-- The header's `_value` is default-initialized through `std::pair`'s default
constructor, which value-initializes all members: with `Key = Data = int`
every field is 0. -/
def hdrIE : IE := ⟨0, 0, 0, 0, 0⟩

/-- Payload built by `interval_tree::insert` (interval_tree.hpp 404-411):
`data.max = interval.second`, `data.min = interval.first`. -/
def mkIE (lo hi d : Int) : IE := ⟨lo, hi, hi, lo, d⟩

/-- Tail of `Interval::rotation::_update_min_max` (interval_tree.hpp 285-296):
recompute a node's annotation from its own interval and its (new) children's
annotations, child guards included. -/
def recompE (l : GT IE) (e : IE) (r : GT IE) : IE :=
  let m1 := e.hi
  let n1 := e.lo
  let m2 := match rootE l with | some c => max m1 c.mx | none => m1
  let n2 := match rootE l with | some c => min n1 c.mn | none => n1
  let m3 := match rootE r with | some c => max m2 c.mx | none => m2
  let n3 := match rootE r with | some c => min n2 c.mn | none => n2
  ⟨e.lo, e.hi, m3, n3, e.dat⟩

/-- Source `Interval::rotation::left` (interval_tree.hpp 262-268): the base
rotation followed by `_update_min_max` at the demoted node: the promoted node
inherits the demoted node's old (whole-subtree) annotation and the demoted
node is recomputed from its own interval and its new children. -/
def rotIL : GT IE → GT IE
  | .node l e b (.node rl f c rr) =>
    .node (.node l (recompE l e rl) b rl) ⟨f.lo, f.hi, e.mx, e.mn, f.dat⟩ c rr
  | t => t

/-- Source `Interval::rotation::right` (interval_tree.hpp 270-276), mirror. -/
def rotIR : GT IE → GT IE
  | .node (.node ll f c lr) e b r =>
    .node ll ⟨f.lo, f.hi, e.mx, e.mn, f.dat⟩ c (.node lr (recompE lr e r) b r)
  | t => t

/-- The `Base_type::insert` call made by `interval_tree::insert`: the
underlying `avl_tree::insert` instantiated with `Interval_Compare`,
`Interval::rotation`, `Interval::updater`.  Its returned pair is computed
here; the public `interval_tree::insert` discards it. -/
def insertIF (t : GT IE) (iv : Int × Int) (d : Int) : GT IE × (IE × Bool) × Nat :=
  insertG keyI combI rotIL rotIR hdrIE t (mkIE iv.1 iv.2 d)

/-- Source `interval_tree::insert` (interval_tree.hpp 404-411): builds the
node payload and calls `Base_type::insert`; the member function is `void`, so
the (handle, inserted) pair of the base call is discarded and only the
mutated tree remains observable. -/
def insertIT (t : GT IE) (iv : Int × Int) (d : Int) : GT IE := (insertIF t iv d).1

/-- Tree built by a sequence of `interval_tree::insert` calls on an initially
empty tree. -/
def buildI (xs : List ((Int × Int) × Int)) : GT IE :=
  xs.foldl (fun t x => insertIT t x.1 x.2) .nil

/-! ## Overlap query (interval_tree.hpp 116-140 / 198-215) -/

/-- Source `Interval_overlap` (interval_tree.hpp 49-59):
`compare(x.first, y.second) && compare(y.first, x.second)`. -/
def overlapP (x y : Int × Int) : Prop := x.1 < y.2 ∧ y.1 < x.2

instance (x y : Int × Int) : Decidable (overlapP x y) := by
  unfold overlapP; infer_instance

/-- The (interval, value) projection of a stored node, as the query yields
it. -/
def entE (e : IE) : (Int × Int) × Int := ((e.lo, e.hi), e.dat)

/-- All stored (interval, value) entries, in order. -/
def entriesOf (t : GT IE) : List ((Int × Int) × Int) := (elemsG t).map entE

/-- Left-descent guard of `_forward`: `_node->_left != NULL &&
compare(interval.first, left->max)`. -/
def pushL (q : Int × Int) : GT IE → Bool
  | .nil => false
  | .node _ e _ _ => decide (q.1 < e.mx)

/-- Right-descent guard of `_forward`: `_node->_right != NULL &&
compare(right->min, interval.second)`. -/
def pushR (q : Int × Int) : GT IE → Bool
  | .nil => false
  | .node _ e _ _ => decide (e.mn < q.2)

/-- Stack evolution of one `_forward` iteration after popping a node with
children `l`, `r`: push `l` then `r` (so `r` ends on top) under the pruning
guards. -/
def qStep (q : Int × Int) (l r : GT IE) (rest : List (GT IE)) : List (GT IE) :=
  let s1 := if pushL q l then l :: rest else rest
  if pushR q r then r :: s1 else s1

/-- Total size of a traversal stack (termination measure). -/
def msz : List (GT IE) → Nat
  | [] => 0
  | t :: rest => size t + msz rest

/-- Source `_interval_iterator::_forward` (interval_tree.hpp 116-133), run to
completion: the full lazy sequence the query iterator yields before reaching
`end()`.  Each loop iteration pops the stack top, pushes the children that
pass the pruning guards, and yields the popped node's entry when it overlaps
the query.  Popping a null pointer (which happens exactly when the null root
of an empty tree was pushed by the iterator constructor) dereferences
`_node->_left`: modelled as `none`. -/
def qForward (q : Int × Int) : List (GT IE) → Option (List ((Int × Int) × Int))
  | [] => some []
  | .nil :: _ => none
  | .node l e _ r :: rest =>
    match qForward q (qStep q l r rest) with
    | none => none
    | some res =>
      some (if overlapP q (e.lo, e.hi) then entE e :: res else res)
termination_by s => msz s
decreasing_by
  simp only [msz, size]
  unfold qStep
  by_cases h1 : pushL q l <;> by_cases h2 : pushR q r <;>
    simp [h1, h2, msz] <;> omega

/-- Largest stack pointer value reached during the `_forward` run (the stack
length at each loop entry; on the null-pointer crash the length at the crash
point). -/
def qSpMax (q : Int × Int) : List (GT IE) → Nat
  | [] => 0
  | .nil :: rest => (GT.nil :: rest).length
  | .node l e _ r :: rest =>
    max (List.length (GT.node l e 0 r :: rest)) (qSpMax q (qStep q l r rest))
termination_by s => msz s
decreasing_by
  simp only [msz, size]
  unfold qStep
  by_cases h1 : pushL q l <;> by_cases h2 : pushR q r <;>
    simp [h1, h2, msz] <;> omega

/-- Source `interval_tree::equal_range(const interval_type&)`
(interval_tree.hpp 391-395): push the root pointer (null for an empty tree)
and run the iterator. -/
def equalRangeI (t : GT IE) (i : Int × Int) :
    Option (List ((Int × Int) × Int)) :=
  qForward i [t]

/-- Source `interval_tree::equal_range(const key_type&)` (interval_tree.hpp
382-386): the overlap query for the degenerate interval `(k, k)`. -/
def equalRangeP (t : GT IE) (k : Int) : Option (List ((Int × Int) × Int)) :=
  equalRangeI t (k, k)

/-- Source `STACK_SIZE` (interval_tree.hpp 64). -/
def STACK_SIZE : Nat := 64

/-- Cap chain for the deeper part of a traversal stack: heights strictly
decrease toward the top of the stack (each entry was pushed one level deeper
than the one below it), all entries are real nodes. -/
def ChainU : Nat → List (GT IE) → Prop
  | _, [] => True
  | c, t :: rest => t ≠ .nil ∧ hN t ≤ c ∧ ChainU (c + 1) rest

/-- Invariant of the `_forward` traversal stack: all entries are real nodes;
the top two entries are bounded by the current cap `c` (two siblings may have
been pushed together), and below them the caps rise strictly. -/
def SInv : Nat → List (GT IE) → Prop
  | _, [] => True
  | c, [t] => t ≠ .nil ∧ hN t ≤ c
  | c, t1 :: t2 :: rest =>
    t1 ≠ .nil ∧ hN t1 ≤ c ∧ t2 ≠ .nil ∧ hN t2 ≤ c ∧ ChainU (c + 1) rest

/-! ## Copy construction (avl_tree.hpp 263-275, 374-382, 514-537) -/

mutual
/-- Source `avl_tree::_copy` (avl_tree.hpp 514-537) top part: clone the node
(`_clone_node` copies value and balance, null children), copy the right
subtree recursively, then walk the left spine iteratively (`copySpineM`). -/
def copyG : GT α → GT α
  | .nil => .nil
  | .node l e b r => .node (copySpineM l) e b (copyG r)

/-- Source `avl_tree::_copy` while-loop over `x = _left(x)`: clone each
left-spine node, copying its right subtree recursively. -/
def copySpineM : GT α → GT α
  | .nil => .nil
  | .node l e b r => .node (copySpineM l) e b (copyG r)
end

/-- Where a link of the copied tree's header can point. -/
inductive HdrPtr (α : Type) : Type where
  | null : HdrPtr α
  | srcHdr : HdrPtr α
  | ownTree : GT α → HdrPtr α
deriving DecidableEq

/-- The copied tree's header links (`_parent` = root, `_left` = leftmost,
`_right` = rightmost). -/
structure CopyHdr (α : Type) where
  parent : HdrPtr α
  left : HdrPtr α
  right : HdrPtr α
deriving DecidableEq

/-- Subtree rooted at the leftmost node. -/
def leftSub : GT α → GT α
  | .nil => .nil
  | .node .nil e b r => .node .nil e b r
  | .node (.node a y c d) _ _ _ => leftSub (.node a y c d)

/-- Subtree rooted at the rightmost node. -/
def rightSub : GT α → GT α
  | .nil => .nil
  | .node l e b .nil => .node l e b .nil
  | .node _ _ _ (.node a y c d) => rightSub (.node a y c d)

/-- Source copy constructor `avl_tree(const avl_tree&)` (avl_tree.hpp
263-275).  The member initializer `_header(o._header)` copies the source
header's three links verbatim: for an empty source they are `_parent = NULL`
and `_left = _right = &o._header` (the SOURCE header), and since
`o._header._parent == NULL` the body's fixup is skipped and they stay that
way.  For a non-empty source the body replaces them with the copied root and
the leftmost/rightmost nodes of the copy. -/
def copyCtorHdr (o : GT α) : CopyHdr α :=
  match o with
  | .nil => ⟨HdrPtr.null, HdrPtr.srcHdr, HdrPtr.srcHdr⟩
  | .node l e b r =>
    let c := copyG (GT.node l e b r)
    ⟨HdrPtr.ownTree c, HdrPtr.ownTree (leftSub c), HdrPtr.ownTree (rightSub c)⟩

/-! ## Ordering invariants -/

/-- Keys stored in a subtree, in order. -/
def keysG (key : α → Int) (t : GT α) : List Int := (elemsG t).map key

/-- Optional strict lower bound. -/
def inLb (lo : Option Int) (k : Int) : Prop :=
  match lo with
  | none => True
  | some v => v < k

/-- Optional strict upper bound. -/
def inUb (k : Int) (hi : Option Int) : Prop :=
  match hi with
  | none => True
  | some v => k < v

/-- Binary-search-tree invariant with open bounds: every key lies strictly
between `lo` and `hi`, recursively. -/
def Bnd (key : α → Int) : Option Int → Option Int → GT α → Prop
  | _, _, .nil => True
  | lo, hi, .node l e _ r =>
    inLb lo (key e) ∧ inUb (key e) hi ∧
      Bnd key lo (some (key e)) l ∧ Bnd key (some (key e)) hi r

/-- Two trees with the same shape and the same key at every node (payloads
and balance fields may differ). -/
def SameSK (key : α → Int) : GT α → GT α → Prop
  | .nil, .nil => True
  | .node l e _ r, .node l' e' _ r' =>
    key e = key e' ∧ SameSK key l l' ∧ SameSK key r r'
  | _, _ => False

/-- Over-approximation invariant of the stored annotations: each node's `mx`
is at least its own high endpoint and at least its children's `mx`, and `mn`
is at most its own low endpoint and at most its children's `mn`.  (After the
first insertion the header's value-initialized zeros may have been folded
into the annotations, so the stored values can strictly over-approximate the
true subtree extrema — see claim C2; an over-approximation is exactly what
the pruned traversal needs for completeness.) -/
def WA : GT IE → Prop
  | .nil => True
  | .node l e _ r =>
    WA l ∧ WA r ∧ e.hi ≤ e.mx ∧ e.mn ≤ e.lo ∧
      (∀ c, rootE l = some c → c.mx ≤ e.mx ∧ e.mn ≤ c.mn) ∧
      (∀ c, rootE r = some c → c.mx ≤ e.mx ∧ e.mn ≤ c.mn)

/-- The overlap predicate of the query, as a Boolean filter on reported
(interval, value) entries. -/
def matchesQ (q : Int × Int) (p : (Int × Int) × Int) : Bool :=
  decide (overlapP q p.1)

/-- The set of stored entries the query is supposed to return: the stored
entries whose interval overlaps the query interval. -/
def queryExpected (q : Int × Int) (t : GT IE) : List ((Int × Int) × Int) :=
  (entriesOf t).filter (matchesQ q)

/-! ## Spec-side recomputation of the augmentation (claim C2's checker) -/

/-- Independent recomputation, from a full subtree walk, of the true maximum
high endpoint stored in a subtree (the spec's verification procedure for the
augmentation invariant). -/
def specMaxHi (t : GT IE) : Option Int := ((elemsG t).map IE.hi).max?

/-- Independent recomputation of the true minimum low endpoint stored in a
subtree. -/
def specMinLo (t : GT IE) : Option Int := ((elemsG t).map IE.lo).min?

/-- Annotation fields actually stored at the root. -/
def rootMx (t : GT IE) : Option Int := (rootE t).map IE.mx

/-- Stored minimum annotation at the root. -/
def rootMn (t : GT IE) : Option Int := (rootE t).map IE.mn

/-! ## The iterator (`_avl_tree_increment`, avl_tree.hpp 56-73)

The source walks parent pointers.  A parent pointer is embedded as a zipper:
a context frame records whether the focused node is the left or the right
child of its parent, together with the parent payload, the parent balance
field, and the sibling subtree.  Reaching the header (`end()`) is reaching
the empty context while climbing. -/

/-- One step of parent-pointer context.  `isLeftChild` tells whether the
focused node is `parent->_left` (true) or `parent->_right` (false); `sib` is
the parent's other subtree. -/
structure FrameZ (α : Type) where
  isLeftChild : Bool
  pe : α
  pb : Int
  sib : GT α
deriving Repr

/-- The `while (x->_left != NULL) x = x->_left;` descent (also how `begin()`
finds the header's `_left`, the minimum): focus the leftmost node of `t`,
pushing left-child frames.  `none` exactly when `t` is empty. -/
def leftmostZ (ctx : List (FrameZ α)) (t : GT α) : Option (List (FrameZ α) × GT α) :=
  match t with
  | .nil => none
  | .node l e b r =>
    match l with
    | .nil => some (ctx, .node .nil e b r)
    | .node a w c d => leftmostZ (⟨true, e, b, r⟩ :: ctx) (.node a w c d)

/-- The `while (x == y->_right) { x = y; y = y->_parent; }` climb of
`_avl_tree_increment`: pop right-child frames, reconstituting the subtree;
the first left-child frame's parent is the successor.  Climbing off the root
(empty context, i.e. `y` is the header) is `end()`. -/
def climb (ctx : List (FrameZ α)) (l : GT α) (e : α) (b : Int) (r : GT α) :
    Option (List (FrameZ α) × GT α) :=
  match ctx with
  | [] => none
  | ⟨true, pe, pb, sib⟩ :: ctx2 => some (ctx2, .node (.node l e b r) pe pb sib)
  | ⟨false, pe, pb, sib⟩ :: ctx2 => climb ctx2 sib pe pb (.node l e b r)

/-- `_avl_tree_increment` on a focused node: if `x->_right != NULL`, the
successor is the minimum of the right subtree, else climb to the first
ancestor of which `x` lies in the left subtree (`none` = `end()`). -/
def incrZ (ctx : List (FrameZ α)) (t : GT α) : Option (List (FrameZ α) × GT α) :=
  match t with
  | .nil => none
  | .node l e b r =>
    match r with
    | .node a w c d => leftmostZ (⟨false, e, b, l⟩ :: ctx) (.node a w c d)
    | .nil => climb ctx l e b .nil

/-- Fuel-indexed iteration: visit the focused payload, increment, repeat
until `end()`. -/
def iterFrom : Nat → Option (List (FrameZ α) × GT α) → List α
  | 0, _ => []
  | _, none => []
  | Nat.succ n, some (ctx, t) =>
    match t with
    | .nil => []
    | .node l e b r => e :: iterFrom n (incrZ ctx (.node l e b r))

/-- The full in-order walk from `begin()` to `end()` by repeated iterator
increment (`size t` increments suffice, as proved in `iterA_eq_elemsG`). -/
def iterA (t : GT α) : List α := iterFrom (size t) (leftmostZ [] t)

/-- Payloads still to be visited strictly after the focused subtree: the
parents whose left subtree we are in, and everything to their right. -/
def restC : List (FrameZ α) → List α
  | [] => []
  | ⟨true, pe, _, sib⟩ :: ctx => pe :: (elemsG sib ++ restC ctx)
  | ⟨false, _, _, _⟩ :: ctx => restC ctx

/-- Payloads not yet visited from a focused iterator position: the focused
payload, its right subtree, then the context's remainder (the focused left
subtree has already been walked). -/
def remI : List (FrameZ α) → GT α → List α
  | ctx, .nil => restC ctx
  | ctx, .node _ e _ r => e :: (elemsG r ++ restC ctx)

/-! ## Basic lemmas about bounds, shapes and keys -/

theorem keysG_nil (key : α → Int) : keysG key (.nil : GT α) = [] := rfl

theorem keysG_node (key : α → Int) (l : GT α) (e : α) (b : Int) (r : GT α) :
    keysG key (.node l e b r) = keysG key l ++ key e :: keysG key r := by
  simp [keysG, elemsG]

theorem bnd_nil_iff {key : α → Int} {lo hi : Option Int} :
    Bnd key lo hi (.nil : GT α) ↔ True := Iff.rfl

theorem bnd_node_iff {key : α → Int} {lo hi : Option Int} {l : GT α} {e : α}
    {b : Int} {r : GT α} :
    Bnd key lo hi (.node l e b r) ↔
      inLb lo (key e) ∧ inUb (key e) hi ∧
        Bnd key lo (some (key e)) l ∧ Bnd key (some (key e)) hi r := Iff.rfl

theorem inLb_trans {lo : Option Int} {a b : Int} (h : inLb lo a) (hab : a < b) :
    inLb lo b := by
  cases lo <;> simp [inLb] at h ⊢ <;> omega

theorem inUb_trans {hi : Option Int} {a b : Int} (hab : a < b) (h : inUb b hi) :
    inUb a hi := by
  cases hi <;> simp [inUb] at h ⊢ <;> omega

theorem bnd_elem (key : α → Int) :
    ∀ (t : GT α) (lo hi : Option Int), Bnd key lo hi t →
      ∀ e ∈ elemsG t, inLb lo (key e) ∧ inUb (key e) hi := by
  intro t
  induction t with
  | nil => intro lo hi _ e he; simp [elemsG] at he
  | node l e b r ihl ihr =>
    intro lo hi h x hx
    obtain ⟨h1, h2, hl, hr⟩ := h
    simp [elemsG] at hx
    rcases hx with hx | rfl | hx
    · have := ihl lo (some (key e)) hl x hx
      exact ⟨this.1, inUb_trans this.2 h2⟩
    · exact ⟨h1, h2⟩
    · have := ihr (some (key e)) hi hr x hx
      exact ⟨inLb_trans h1 this.1, this.2⟩

theorem sameSK_nil_iff {key : α → Int} :
    SameSK key (.nil : GT α) .nil ↔ True := Iff.rfl

theorem sameSK_node_iff {key : α → Int} {l r l' r' : GT α} {e e' : α}
    {b b' : Int} :
    SameSK key (.node l e b r) (.node l' e' b' r') ↔
      key e = key e' ∧ SameSK key l l' ∧ SameSK key r r' := Iff.rfl

theorem sameSK_refl (key : α → Int) : ∀ t : GT α, SameSK key t t := by
  intro t; induction t with
  | nil => exact sameSK_nil_iff.mpr trivial
  | node l e b r ihl ihr => exact sameSK_node_iff.mpr ⟨rfl, ihl, ihr⟩

theorem bnd_of_sameSK (key : α → Int) :
    ∀ (t t' : GT α) (lo hi : Option Int), SameSK key t' t →
      Bnd key lo hi t → Bnd key lo hi t' := by
  intro t
  induction t with
  | nil =>
    intro t' lo hi hs _
    cases t' with
    | nil => exact bnd_nil_iff.mpr trivial
    | node _ _ _ _ => simp [SameSK] at hs
  | node l e b r ihl ihr =>
    intro t' lo hi hs hb
    cases t' with
    | nil => exact bnd_nil_iff.mpr trivial
    | node l' e' b' r' =>
      have hs' : key e' = key e ∧ SameSK key l' l ∧ SameSK key r' r := hs
      obtain ⟨hk, hsl, hsr⟩ := hs'
      obtain ⟨h1, h2, hl, hr⟩ := bnd_node_iff.mp hb
      exact bnd_node_iff.mpr ⟨hk ▸ h1, hk ▸ h2,
        hk ▸ ihl l' lo (some (key e)) hsl hl,
        hk ▸ ihr r' (some (key e)) hi hsr hr⟩

/-! ## Rotations preserve the BST invariant -/

theorem rotL_bnd (key : α → Int) (lo hi : Option Int) (t : GT α)
    (h : Bnd key lo hi t) : Bnd key lo hi (rotL t) := by
  cases t with
  | nil => exact h
  | node l e b r =>
    cases r with
    | nil => simp only [rotL]; exact h
    | node rl f c rr =>
      obtain ⟨h1, h2, hl, hr⟩ := bnd_node_iff.mp h
      obtain ⟨h3, h4, hrl, hrr⟩ := bnd_node_iff.mp hr
      simp only [rotL]
      exact bnd_node_iff.mpr ⟨inLb_trans h1 h3, h4,
        bnd_node_iff.mpr ⟨h1, h3, hl, hrl⟩, hrr⟩

theorem rotR_bnd (key : α → Int) (lo hi : Option Int) (t : GT α)
    (h : Bnd key lo hi t) : Bnd key lo hi (rotR t) := by
  cases t with
  | nil => exact h
  | node l e b r =>
    cases l with
    | nil => simp only [rotR]; exact h
    | node ll f c lr =>
      obtain ⟨h1, h2, hl, hr⟩ := bnd_node_iff.mp h
      obtain ⟨h3, h4, hll, hlr⟩ := bnd_node_iff.mp hl
      simp only [rotR]
      exact bnd_node_iff.mpr ⟨h3, inUb_trans h4 h2, hll,
        bnd_node_iff.mpr ⟨h4, h2, hlr, hr⟩⟩

theorem rotIL_sameSK (t : GT IE) : SameSK keyI (rotIL t) (rotL t) := by
  cases t with
  | nil => exact sameSK_refl keyI _
  | node l e b r =>
    cases r with
    | nil => exact sameSK_refl keyI _
    | node rl f c rr =>
      simp only [rotIL, rotL]
      exact sameSK_node_iff.mpr ⟨rfl,
        sameSK_node_iff.mpr ⟨rfl, sameSK_refl keyI l, sameSK_refl keyI rl⟩,
        sameSK_refl keyI rr⟩

theorem rotIR_sameSK (t : GT IE) : SameSK keyI (rotIR t) (rotR t) := by
  cases t with
  | nil => exact sameSK_refl keyI _
  | node l e b r =>
    cases l with
    | nil => exact sameSK_refl keyI _
    | node ll f c lr =>
      simp only [rotIR, rotR]
      exact sameSK_node_iff.mpr ⟨rfl, sameSK_refl keyI ll,
        sameSK_node_iff.mpr ⟨rfl, sameSK_refl keyI lr, sameSK_refl keyI r⟩⟩

theorem rotIL_bnd (lo hi : Option Int) (t : GT IE) (h : Bnd keyI lo hi t) :
    Bnd keyI lo hi (rotIL t) :=
  bnd_of_sameSK keyI (rotL t) (rotIL t) lo hi (rotIL_sameSK t)
    (rotL_bnd keyI lo hi t h)

theorem rotIR_bnd (lo hi : Option Int) (t : GT IE) (h : Bnd keyI lo hi t) :
    Bnd keyI lo hi (rotIR t) :=
  bnd_of_sameSK keyI (rotR t) (rotIR t) lo hi (rotIR_sameSK t)
    (rotR_bnd keyI lo hi t h)

/-! ## The rebalance fixup preserves the BST invariant -/

theorem rebalG_bnd (key : α → Int) (ro_l ro_r : GT α → GT α)
    (hL : ∀ lo hi t, Bnd key lo hi t → Bnd key lo hi (ro_l t))
    (hR : ∀ lo hi t, Bnd key lo hi t → Bnd key lo hi (ro_r t))
    (lo hi : Option Int) (t : GT α) (h : Bnd key lo hi t) :
    Bnd key lo hi (rebalG ro_l ro_r t).1 := by
  cases t with
  | nil => exact h
  | node l e b r =>
    obtain ⟨h1, h2, hl, hr⟩ := bnd_node_iff.mp h
    unfold rebalG
    by_cases hb2 : b = 2
    · simp only [hb2, if_pos rfl]
      cases r with
      | nil => exact h
      | node rl2 f c rr2 =>
        obtain ⟨h3, h4, hrl, hrr⟩ := bnd_node_iff.mp hr
        by_cases hc : c = 1
        · simp only [if_pos hc]
          exact hL lo hi _ (bnd_node_iff.mpr ⟨h1, h2, hl,
            bnd_node_iff.mpr ⟨h3, h4, hrl, hrr⟩⟩)
        · simp only [if_neg hc]
          cases rl2 with
          | nil =>
            exact bnd_node_iff.mpr ⟨h1, h2, hl,
              bnd_node_iff.mpr ⟨h3, h4, hrl, hrr⟩⟩
          | node a w wb d =>
            obtain ⟨h5, h6, ha, hd⟩ := bnd_node_iff.mp hrl
            exact hL lo hi _ (bnd_node_iff.mpr ⟨h1, h2, hl,
              hR (some (key e)) hi _ (bnd_node_iff.mpr ⟨h3, h4,
                bnd_node_iff.mpr ⟨h5, h6, ha, hd⟩, hrr⟩)⟩)
    · by_cases hbm : b = -2
      · simp only [if_neg hb2, hbm, if_pos rfl]
        cases l with
        | nil => exact h
        | node ll f c lr =>
          obtain ⟨g1, g2, gll, glr⟩ := bnd_node_iff.mp hl
          by_cases hc : c = -1
          · simp only [if_pos hc]
            exact hR lo hi _ (bnd_node_iff.mpr ⟨h1, h2,
              bnd_node_iff.mpr ⟨g1, g2, gll, glr⟩, hr⟩)
          · simp only [if_neg hc]
            cases lr with
            | nil =>
              exact bnd_node_iff.mpr ⟨h1, h2,
                bnd_node_iff.mpr ⟨g1, g2, gll, glr⟩, hr⟩
            | node a w wb d =>
              obtain ⟨q1, q2, qa, qd⟩ := bnd_node_iff.mp glr
              exact hR lo hi _ (bnd_node_iff.mpr ⟨h1, h2,
                hL lo (some (key e)) _ (bnd_node_iff.mpr ⟨g1, g2, gll,
                  bnd_node_iff.mpr ⟨q1, q2, qa, qd⟩⟩), hr⟩)
      · simp only [if_neg hb2, if_neg hbm]
        exact h

/-! ## Insert phases preserve the BST invariant -/

theorem attach_bnd (key : α → Int) (x : α) :
    ∀ (t : GT α) (lo hi : Option Int), Bnd key lo hi t →
      inLb lo (key x) → inUb (key x) hi → key x ∉ keysG key t →
      Bnd key lo hi (attach key x t) := by
  intro t
  induction t with
  | nil =>
    intro lo hi _ hlo hhi _
    exact bnd_node_iff.mpr ⟨hlo, hhi, trivial, trivial⟩
  | node l e b r ihl ihr =>
    intro lo hi h hlo hhi hmem
    obtain ⟨h1, h2, hl, hr⟩ := bnd_node_iff.mp h
    rw [keysG_node] at hmem
    simp only [List.mem_append, List.mem_cons] at hmem
    push_neg at hmem
    obtain ⟨hm1, hm2, hm3⟩ := hmem
    simp only [attach]
    by_cases hcmp : key x < key e
    · simp only [if_pos hcmp]
      exact bnd_node_iff.mpr ⟨h1, h2, ihl lo (some (key e)) hl hlo hcmp hm1, hr⟩
    · simp only [if_neg hcmp]
      have hgt : key e < key x := by omega
      exact bnd_node_iff.mpr ⟨h1, h2, hl, ihr (some (key e)) hi hr hgt hhi hm3⟩

theorem retrace_sameSK (key : α → Int) (comb : α → α → α)
    (hk : ∀ c p, key (comb c p) = key p) :
    ∀ (t : GT α) (k : Int) (cd : Option Nat),
      SameSK key (retrace key comb t k cd) t := by
  intro t
  induction t with
  | nil => intro k cd; exact sameSK_refl key _
  | node l e b r ihl ihr =>
    intro k cd
    simp only [retrace]
    by_cases h1 : k < key e
    · simp only [if_pos h1]
      refine sameSK_node_iff.mpr ⟨?_, ihl k (cd.map Nat.pred), sameSK_refl key r⟩
      cases hre : rootE (retrace key comb l k (cd.map Nat.pred)) with
      | none => rfl
      | some c => exact hk c e
    · simp only [if_neg h1]
      by_cases h2 : key e < k
      · simp only [if_pos h2]
        refine sameSK_node_iff.mpr ⟨?_, sameSK_refl key l, ihr k (cd.map Nat.pred)⟩
        cases hre : rootE (retrace key comb r k (cd.map Nat.pred)) with
        | none => rfl
        | some c => exact hk c e
      · simp only [if_neg h2]
        exact sameSK_refl key _

theorem rebalAt_bnd (key : α → Int) (ro_l ro_r : GT α → GT α)
    (hL : ∀ lo hi t, Bnd key lo hi t → Bnd key lo hi (ro_l t))
    (hR : ∀ lo hi t, Bnd key lo hi t → Bnd key lo hi (ro_r t)) (k : Int) :
    ∀ (d : Nat) (t : GT α) (lo hi : Option Int), Bnd key lo hi t →
      Bnd key lo hi (rebalAt ro_l ro_r key t k d).1 := by
  intro d
  induction d with
  | zero =>
    intro t lo hi h
    cases t with
    | nil =>
      simp only [rebalAt]
      exact rebalG_bnd key ro_l ro_r hL hR lo hi _ h
    | node l e b r =>
      simp only [rebalAt]
      exact rebalG_bnd key ro_l ro_r hL hR lo hi _ h
  | succ d ih =>
    intro t lo hi h
    cases t with
    | nil => exact h
    | node l e b r =>
      obtain ⟨h1, h2, hl, hr⟩ := bnd_node_iff.mp h
      simp only [rebalAt]
      by_cases hcmp : k < key e
      · simp only [if_pos hcmp]
        exact bnd_node_iff.mpr ⟨h1, h2, ih l lo (some (key e)) hl, hr⟩
      · simp only [if_neg hcmp]
        exact bnd_node_iff.mpr ⟨h1, h2, hl, ih r (some (key e)) hi hr⟩

/-! ## The duplicate check finds exactly the stored key -/

theorem dupFind_spec (key : α → Int) (k : Int) :
    ∀ (t : GT α) (acc : Option α) (hi : Option Int),
      Bnd key (acc.map key) hi t →
      (∀ a, acc = some a → key a ≤ k) →
      ∀ e, dupFind key t k acc = some e ↔
        key e = k ∧ (e ∈ elemsG t ∨ acc = some e) := by
  intro t
  induction t with
  | nil =>
    intro acc hi _ hacc e
    cases acc with
    | none => simp [dupFind, elemsG]
    | some a =>
      have hle : key a ≤ k := hacc a rfl
      simp only [dupFind, elemsG, List.not_mem_nil, false_or]
      by_cases hlt : key a < k
      · simp only [if_pos hlt]
        constructor
        · intro h; exact absurd h (by simp)
        · rintro ⟨hk, h⟩
          injection h with h; subst h; omega
      · simp only [if_neg hlt]
        constructor
        · intro h
          injection h with h; subst h
          exact ⟨by omega, rfl⟩
        · rintro ⟨hk, h⟩
          injection h with h; subst h; rfl
  | node l e b r ihl ihr =>
    intro acc hi h hacc x
    obtain ⟨h1, h2, hl, hr⟩ := bnd_node_iff.mp h
    simp only [dupFind]
    by_cases hcmp : k < key e
    · simp only [if_pos hcmp]
      rw [ihl acc (some (key e)) hl hacc x]
      constructor
      · rintro ⟨hk, hm⟩
        refine ⟨hk, ?_⟩
        rcases hm with hm | hm
        · exact Or.inl (by simp only [elemsG, List.mem_append]; exact Or.inl hm)
        · exact Or.inr hm
      · rintro ⟨hk, hm⟩
        refine ⟨hk, ?_⟩
        rcases hm with hm | hm
        · simp only [elemsG, List.mem_append, List.mem_cons] at hm
          rcases hm with hm | rfl | hm
          · exact Or.inl hm
          · omega
          · have := (bnd_elem key r (some (key e)) hi hr x hm).1
            simp only [inLb] at this; omega
        · exact Or.inr hm
    · simp only [if_neg hcmp]
      have hle : key e ≤ k := by omega
      rw [ihr (some e) hi hr (by rintro a ha; injection ha with ha; subst ha; exact hle) x]
      constructor
      · rintro ⟨hk, hm⟩
        refine ⟨hk, ?_⟩
        rcases hm with hm | hm
        · exact Or.inl (by
            simp only [elemsG, List.mem_append, List.mem_cons]
            exact Or.inr (Or.inr hm))
        · injection hm with hm
          subst hm
          exact Or.inl (by simp [elemsG])
      · rintro ⟨hk, hm⟩
        refine ⟨hk, ?_⟩
        rcases hm with hm | hm
        · simp only [elemsG, List.mem_append, List.mem_cons] at hm
          rcases hm with hm | rfl | hm
          · have := (bnd_elem key l (acc.map key) (some (key e)) hl x hm).2
            simp only [inUb] at this; omega
          · exact Or.inr rfl
          · exact Or.inl hm
        · cases acc with
          | none => exact absurd hm (by simp)
          | some a =>
            injection hm with hm; subst hm
            have hb := h1
            simp only [Option.map_some', inLb] at hb
            omega

theorem dupFind_none_iff (key : α → Int) (t : GT α) (k : Int)
    (h : Bnd key none none t) :
    dupFind key t k none = none ↔ k ∉ keysG key t := by
  constructor
  · intro hd hk
    simp only [keysG, List.mem_map] at hk
    obtain ⟨e, he, hke⟩ := hk
    have := (dupFind_spec key k t none none h (by simp) e).mpr ⟨hke, Or.inl he⟩
    rw [hd] at this
    exact absurd this (by simp)
  · intro hk
    cases hd : dupFind key t k none with
    | none => rfl
    | some e =>
      have hsp := (dupFind_spec key k t none none h (by simp) e).mp hd
      exact absurd (by
        simp only [keysG, List.mem_map]
        rcases hsp.2 with hm | hm
        · exact ⟨e, hm, hsp.1⟩
        · exact absurd hm (by simp)) hk

theorem dupFind_mem (key : α → Int) (t : GT α) (k : Int)
    (h : Bnd key none none t) (hk : k ∈ keysG key t) :
    ∃ e, dupFind key t k none = some e ∧ key e = k ∧ e ∈ elemsG t := by
  simp only [keysG, List.mem_map] at hk
  obtain ⟨e, he, hke⟩ := hk
  exact ⟨e, (dupFind_spec key k t none none h (by simp) e).mpr ⟨hke, Or.inl he⟩,
    hke, he⟩

/-! ## Insertion preserves the BST invariant -/

theorem insertG_bnd (key : α → Int) (comb : α → α → α)
    (ro_l ro_r : GT α → GT α) (hdrE : α)
    (hk : ∀ c p, key (comb c p) = key p)
    (hL : ∀ lo hi t, Bnd key lo hi t → Bnd key lo hi (ro_l t))
    (hR : ∀ lo hi t, Bnd key lo hi t → Bnd key lo hi (ro_r t))
    (t : GT α) (x : α) (h : Bnd key none none t) :
    Bnd key none none (insertG key comb ro_l ro_r hdrE t x).1 := by
  cases t with
  | nil =>
    exact bnd_node_iff.mpr ⟨trivial, trivial, trivial, trivial⟩
  | node l e b r =>
    simp only [insertG]
    cases hd : dupFind key (GT.node l e b r) (key x) none with
    | some f => exact h
    | none =>
      have hnm : key x ∉ keysG key (GT.node l e b r) :=
        (dupFind_none_iff key _ (key x) h).mp hd
      have hb1 : Bnd key none none (attach key x (GT.node l e b r)) :=
        attach_bnd key x _ none none h trivial trivial hnm
      have hb2 : Bnd key none none
          (retrace key comb (attach key x (GT.node l e b r)) (key x)
            (unbalDepth key (GT.node l e b r) (key x))) :=
        bnd_of_sameSK key _ _ none none (retrace_sameSK key comb hk _ _ _) hb1
      cases hcd : unbalDepth key (GT.node l e b r) (key x) with
      | none => rw [hcd] at hb2; exact hb2
      | some d =>
        rw [hcd] at hb2
        exact rebalAt_bnd key ro_l ro_r hL hR (key x) d _ none none hb2

theorem buildA_bnd (xs : List AE) : Bnd keyA none none (buildA xs) := by
  have main : ∀ (ys : List AE) (t : GT AE), Bnd keyA none none t →
      Bnd keyA none none (ys.foldl (fun t x => (insertA t x).1) t) := by
    intro ys
    induction ys with
    | nil => intro t h; exact h
    | cons y ys ih =>
      intro t h
      exact ih _ (insertG_bnd keyA combA rotL rotR (0, 0)
        (fun _ _ => rfl) (rotL_bnd keyA) (rotR_bnd keyA) t y h)
  exact main xs .nil trivial

theorem buildI_bnd (xs : List ((Int × Int) × Int)) :
    Bnd keyI none none (buildI xs) := by
  have main : ∀ (ys : List ((Int × Int) × Int)) (t : GT IE),
      Bnd keyI none none t →
      Bnd keyI none none (ys.foldl (fun t x => insertIT t x.1 x.2) t) := by
    intro ys
    induction ys with
    | nil => intro t h; exact h
    | cons y ys ih =>
      intro t h
      exact ih _ (insertG_bnd keyI combI rotIL rotIR hdrIE
        (fun _ _ => rfl) rotIL_bnd rotIR_bnd t (mkIE y.1.1 y.1.2 y.2) h)
  exact main xs .nil trivial

/-! ## The annotation over-approximation invariant -/

theorem wa_nil_iff : WA .nil ↔ True := Iff.rfl

theorem wa_node_iff {l : GT IE} {e : IE} {b : Int} {r : GT IE} :
    WA (.node l e b r) ↔
      WA l ∧ WA r ∧ e.hi ≤ e.mx ∧ e.mn ≤ e.lo ∧
        (∀ c, rootE l = some c → c.mx ≤ e.mx ∧ e.mn ≤ c.mn) ∧
        (∀ c, rootE r = some c → c.mx ≤ e.mx ∧ e.mn ≤ c.mn) := Iff.rfl

theorem wa_bound :
    ∀ t : GT IE, WA t → ∀ c, rootE t = some c →
      ∀ p ∈ elemsG t, p.hi ≤ c.mx ∧ c.mn ≤ p.lo := by
  intro t
  induction t with
  | nil => intro _ c hc; simp [rootE] at hc
  | node l e b r ihl ihr =>
    intro h c hc p hp
    obtain ⟨hl, hr, he1, he2, hdl, hdr⟩ := wa_node_iff.mp h
    have hce : e = c := by
      simp only [rootE] at hc
      injection hc
    subst hce
    simp only [elemsG, List.mem_append, List.mem_cons] at hp
    rcases hp with hp | rfl | hp
    · cases l with
      | nil => simp [elemsG] at hp
      | node ll el bl rl =>
        have hd := hdl el rfl
        have hih := ihl hl el rfl p hp
        exact ⟨le_trans hih.1 hd.1, le_trans hd.2 hih.2⟩
    · exact ⟨he1, he2⟩
    · cases r with
      | nil => simp [elemsG] at hp
      | node rl2 er br rr2 =>
        have hd := hdr er rfl
        have hih := ihr hr er rfl p hp
        exact ⟨le_trans hih.1 hd.1, le_trans hd.2 hih.2⟩

theorem recompE_ge (l : GT IE) (e : IE) (r : GT IE) :
    e.hi ≤ (recompE l e r).mx ∧ (recompE l e r).mn ≤ e.lo ∧
      (∀ c, rootE l = some c →
        c.mx ≤ (recompE l e r).mx ∧ (recompE l e r).mn ≤ c.mn) ∧
      (∀ c, rootE r = some c →
        c.mx ≤ (recompE l e r).mx ∧ (recompE l e r).mn ≤ c.mn) := by
  cases l <;> cases r <;> simp [recompE, rootE] <;> omega

theorem recompE_le (l : GT IE) (e : IE) (r : GT IE) (M N : Int)
    (h1 : e.hi ≤ M) (hm : N ≤ e.lo)
    (h2 : ∀ c, rootE l = some c → c.mx ≤ M ∧ N ≤ c.mn)
    (h3 : ∀ c, rootE r = some c → c.mx ≤ M ∧ N ≤ c.mn) :
    (recompE l e r).mx ≤ M ∧ N ≤ (recompE l e r).mn := by
  cases l <;> cases r <;> simp [recompE, rootE] at h2 h3 ⊢ <;> omega

theorem rotIL_wa (t : GT IE) (h : WA t) : WA (rotIL t) := by
  cases t with
  | nil => exact h
  | node l e b r =>
    cases r with
    | nil => simpa only [rotIL] using h
    | node rl f c rr =>
      obtain ⟨hl, hr, he1, he2, hdl, hdr⟩ := wa_node_iff.mp h
      obtain ⟨hrl, hrr, hf1, hf2, hdrl, hdrr⟩ := wa_node_iff.mp hr
      have hfe := hdr f rfl
      obtain ⟨hg1, hg2, hg3, hg4⟩ := recompE_ge l e rl
      simp only [rotIL]
      refine wa_node_iff.mpr ⟨?_, hrr, ?_, ?_, ?_, ?_⟩
      · exact wa_node_iff.mpr ⟨hl, hrl, hg1, hg2, hg3, hg4⟩
      · exact le_trans hf1 hfe.1
      · exact le_trans hfe.2 hf2
      · intro c' hc'
        simp only [rootE] at hc'
        injection hc' with hc'
        subst hc'
        exact recompE_le l e rl e.mx e.mn he1 he2 hdl
          (fun c2 hc2 => ⟨le_trans (hdrl c2 hc2).1 hfe.1,
            le_trans hfe.2 (hdrl c2 hc2).2⟩)
      · intro c' hc'
        have hd := hdrr c' hc'
        exact ⟨le_trans hd.1 hfe.1, le_trans hfe.2 hd.2⟩

theorem rotIR_wa (t : GT IE) (h : WA t) : WA (rotIR t) := by
  cases t with
  | nil => exact h
  | node l e b r =>
    cases l with
    | nil => simpa only [rotIR] using h
    | node ll f c lr =>
      obtain ⟨hl, hr, he1, he2, hdl, hdr⟩ := wa_node_iff.mp h
      obtain ⟨hll, hlr, hf1, hf2, hdll, hdlr⟩ := wa_node_iff.mp hl
      have hfe := hdl f rfl
      obtain ⟨hg1, hg2, hg3, hg4⟩ := recompE_ge lr e r
      simp only [rotIR]
      refine wa_node_iff.mpr ⟨hll, ?_, ?_, ?_, ?_, ?_⟩
      · exact wa_node_iff.mpr ⟨hlr, hr, hg1, hg2, hg3, hg4⟩
      · exact le_trans hf1 hfe.1
      · exact le_trans hfe.2 hf2
      · intro c' hc'
        have hd := hdll c' hc'
        exact ⟨le_trans hd.1 hfe.1, le_trans hfe.2 hd.2⟩
      · intro c' hc'
        simp only [rootE] at hc'
        injection hc' with hc'
        subst hc'
        exact recompE_le lr e r e.mx e.mn he1 he2
          (fun c2 hc2 => ⟨le_trans (hdlr c2 hc2).1 hfe.1,
            le_trans hfe.2 (hdlr c2 hc2).2⟩) hdr

theorem rotIL_rootAnn (t : GT IE) (c : IE) (hc : rootE (rotIL t) = some c) :
    ∃ c0, rootE t = some c0 ∧ c.mx = c0.mx ∧ c.mn = c0.mn := by
  cases t with
  | nil => exact ⟨c, hc, rfl, rfl⟩
  | node l e b r =>
    cases r with
    | nil => exact ⟨c, hc, rfl, rfl⟩
    | node rl f c2 rr =>
      simp only [rotIL, rootE] at hc ⊢
      injection hc with hc
      subst hc
      exact ⟨e, rfl, rfl, rfl⟩

theorem rotIR_rootAnn (t : GT IE) (c : IE) (hc : rootE (rotIR t) = some c) :
    ∃ c0, rootE t = some c0 ∧ c.mx = c0.mx ∧ c.mn = c0.mn := by
  cases t with
  | nil => exact ⟨c, hc, rfl, rfl⟩
  | node l e b r =>
    cases l with
    | nil => exact ⟨c, hc, rfl, rfl⟩
    | node ll f c2 lr =>
      simp only [rotIR, rootE] at hc ⊢
      injection hc with hc
      subst hc
      exact ⟨e, rfl, rfl, rfl⟩

theorem rebalG_wa :
    ∀ t : GT IE, WA t → WA (rebalG rotIL rotIR t).1 := by
  intro t h
  cases t with
  | nil => exact h
  | node l e b r =>
    obtain ⟨hl, hr, he1, he2, hdl, hdr⟩ := wa_node_iff.mp h
    unfold rebalG
    by_cases hb2 : b = 2
    · simp only [hb2, if_pos rfl]
      cases r with
      | nil => exact h
      | node rl2 f c rr2 =>
        obtain ⟨hrl, hrr, hf1, hf2, hdrl, hdrr⟩ := wa_node_iff.mp hr
        by_cases hc : c = 1
        · simp only [if_pos hc]
          exact rotIL_wa _ (wa_node_iff.mpr ⟨hl, wa_node_iff.mpr
            ⟨hrl, hrr, hf1, hf2, hdrl, hdrr⟩, he1, he2, hdl, hdr⟩)
        · simp only [if_neg hc]
          cases rl2 with
          | nil =>
            exact wa_node_iff.mpr ⟨hl, wa_node_iff.mpr
              ⟨hrl, hrr, hf1, hf2, hdrl, hdrr⟩, he1, he2, hdl, hdr⟩
          | node a w wb d =>
            obtain ⟨ha, hd2, hw1, hw2, hda, hdd⟩ := wa_node_iff.mp hrl
            refine rotIL_wa _ (wa_node_iff.mpr ⟨hl,
              rotIR_wa _ (wa_node_iff.mpr ⟨wa_node_iff.mpr
                ⟨ha, hd2, hw1, hw2, hda, hdd⟩, hrr, hf1, hf2, hdrl, hdrr⟩),
              he1, he2, hdl, ?_⟩)
            intro c3 hc3
            obtain ⟨c0, hc0, h1, h2⟩ := rotIR_rootAnn _ c3 hc3
            simp only [rootE] at hc0
            injection hc0 with hc0
            subst hc0
            have hdrf := hdr f rfl
            exact ⟨h1 ▸ hdrf.1, h2 ▸ hdrf.2⟩
    · by_cases hbm : b = -2
      · simp only [if_neg hb2, hbm, if_pos rfl]
        cases l with
        | nil => exact h
        | node ll f c lr =>
          obtain ⟨hll, hlr, hf1, hf2, hdll, hdlr⟩ := wa_node_iff.mp hl
          by_cases hc : c = -1
          · simp only [if_pos hc]
            exact rotIR_wa _ (wa_node_iff.mpr ⟨wa_node_iff.mpr
              ⟨hll, hlr, hf1, hf2, hdll, hdlr⟩, hr, he1, he2, hdl, hdr⟩)
          · simp only [if_neg hc]
            cases lr with
            | nil =>
              exact wa_node_iff.mpr ⟨wa_node_iff.mpr
                ⟨hll, hlr, hf1, hf2, hdll, hdlr⟩, hr, he1, he2, hdl, hdr⟩
            | node a w wb d =>
              obtain ⟨ha, hd2, hw1, hw2, hda, hdd⟩ := wa_node_iff.mp hlr
              refine rotIR_wa _ (wa_node_iff.mpr ⟨
                rotIL_wa _ (wa_node_iff.mpr ⟨hll, wa_node_iff.mpr
                  ⟨ha, hd2, hw1, hw2, hda, hdd⟩, hf1, hf2, hdll, hdlr⟩),
                hr, he1, he2, ?_, hdr⟩)
              intro c3 hc3
              obtain ⟨c0, hc0, h1, h2⟩ := rotIL_rootAnn _ c3 hc3
              simp only [rootE] at hc0
              injection hc0 with hc0
              subst hc0
              have hdlf := hdl f rfl
              exact ⟨h1 ▸ hdlf.1, h2 ▸ hdlf.2⟩
      · simp only [if_neg hb2, if_neg hbm]
        exact h

theorem rebalG_root (l : GT IE) (e : IE) (b : Int) (r : GT IE) :
    ∃ c, rootE (rebalG rotIL rotIR (.node l e b r)).1 = some c ∧
      c.mx = e.mx ∧ c.mn = e.mn := by
  unfold rebalG
  by_cases hb2 : b = 2
  · simp only [hb2, if_pos rfl]
    cases r with
    | nil => exact ⟨e, rfl, rfl, rfl⟩
    | node rl2 f c2 rr2 =>
      by_cases hcc : c2 = 1
      · simp only [if_pos hcc]
        exact ⟨⟨f.lo, f.hi, e.mx, e.mn, f.dat⟩, rfl, rfl, rfl⟩
      · simp only [if_neg hcc]
        cases rl2 with
        | nil => exact ⟨e, rfl, rfl, rfl⟩
        | node a w wb d =>
          exact ⟨⟨w.lo, w.hi, e.mx, e.mn, w.dat⟩, rfl, rfl, rfl⟩
  · by_cases hbm : b = -2
    · simp only [if_neg hb2, hbm, if_pos rfl]
      cases l with
      | nil => exact ⟨e, rfl, rfl, rfl⟩
      | node ll f c2 lr =>
        by_cases hcc : c2 = -1
        · simp only [if_pos hcc]
          exact ⟨⟨f.lo, f.hi, e.mx, e.mn, f.dat⟩, rfl, rfl, rfl⟩
        · simp only [if_neg hcc]
          cases lr with
          | nil => exact ⟨e, rfl, rfl, rfl⟩
          | node a w wb d =>
            exact ⟨⟨w.lo, w.hi, e.mx, e.mn, w.dat⟩, rfl, rfl, rfl⟩
    · simp only [if_neg hb2, if_neg hbm]
      exact ⟨e, rfl, rfl, rfl⟩

theorem rebalAt_root (k : Int) :
    ∀ (d : Nat) (l : GT IE) (e : IE) (b : Int) (r : GT IE),
      ∃ c, rootE (rebalAt rotIL rotIR keyI (.node l e b r) k d).1 = some c ∧
        c.mx = e.mx ∧ c.mn = e.mn := by
  intro d
  induction d with
  | zero =>
    intro l e b r
    simp only [rebalAt]
    exact rebalG_root l e b r
  | succ d ih =>
    intro l e b r
    simp only [rebalAt]
    by_cases hcmp : k < keyI e
    · simp only [if_pos hcmp]
      exact ⟨e, rfl, rfl, rfl⟩
    · simp only [if_neg hcmp]
      exact ⟨e, rfl, rfl, rfl⟩

theorem rebalAt_wa (k : Int) :
    ∀ (d : Nat) (t : GT IE), WA t → WA (rebalAt rotIL rotIR keyI t k d).1 := by
  intro d
  induction d with
  | zero =>
    intro t h
    cases t with
    | nil => simp only [rebalAt]; exact rebalG_wa _ h
    | node l e b r => simp only [rebalAt]; exact rebalG_wa _ h
  | succ d ih =>
    intro t h
    cases t with
    | nil => exact h
    | node l e b r =>
      obtain ⟨hl, hr, he1, he2, hdl, hdr⟩ := wa_node_iff.mp h
      simp only [rebalAt]
      by_cases hcmp : k < keyI e
      · simp only [if_pos hcmp]
        refine wa_node_iff.mpr ⟨ih l hl, hr, he1, he2, ?_, hdr⟩
        intro c hc
        cases l with
        | nil =>
          cases d with
          | zero => simp [rebalAt, rebalG, rootE] at hc
          | succ d2 => simp [rebalAt, rootE] at hc
        | node ll el bl rl =>
          obtain ⟨c0, h0, hmx, hmn⟩ := rebalAt_root k d ll el bl rl
          rw [h0] at hc
          injection hc with hc
          subst hc
          have hd := hdl el rfl
          constructor
          · rw [hmx]; exact hd.1
          · rw [hmn]; exact hd.2
      · simp only [if_neg hcmp]
        refine wa_node_iff.mpr ⟨hl, ih r hr, he1, he2, hdl, ?_⟩
        intro c hc
        cases r with
        | nil =>
          cases d with
          | zero => simp [rebalAt, rebalG, rootE] at hc
          | succ d2 => simp [rebalAt, rootE] at hc
        | node rl2 er br rr2 =>
          obtain ⟨c0, h0, hmx, hmn⟩ := rebalAt_root k d rl2 er br rr2
          rw [h0] at hc
          injection hc with hc
          subst hc
          have hd := hdr er rfl
          constructor
          · rw [hmx]; exact hd.1
          · rw [hmn]; exact hd.2

theorem retrace_attach_wa (x : IE) (hx1 : x.hi ≤ x.mx) (hx2 : x.mn ≤ x.lo) :
    ∀ (t : GT IE) (cd : Option Nat), WA t → keyI x ∉ keysG keyI t →
      WA (retrace keyI combI (attach keyI x t) (keyI x) cd) := by
  intro t
  induction t with
  | nil =>
    intro cd _ _
    simp only [attach, retrace, lt_self_iff_false, if_false]
    refine wa_node_iff.mpr ⟨trivial, trivial, hx1, hx2, ?_, ?_⟩ <;>
      intro c h <;> simp [rootE] at h
  | node l e b r ihl ihr =>
    intro cd h hmem
    obtain ⟨hl, hr, he1, he2, hdl, hdr⟩ := wa_node_iff.mp h
    rw [keysG_node] at hmem
    simp only [List.mem_append, List.mem_cons] at hmem
    push_neg at hmem
    obtain ⟨hm1, hm2, hm3⟩ := hmem
    by_cases hc : keyI x < keyI e
    · simp only [attach, if_pos hc, retrace]
      have ihl2 := ihl (cd.map Nat.pred) hl hm1
      cases hre : rootE (retrace keyI combI (attach keyI x l) (keyI x)
          (cd.map Nat.pred)) with
      | none =>
        simp only [hre]
        refine wa_node_iff.mpr ⟨ihl2, hr, he1, he2, ?_, hdr⟩
        intro c hcc
        rw [hre] at hcc
        cases hcc
      | some c0 =>
        simp only [hre, combI]
        refine wa_node_iff.mpr ⟨ihl2, hr, ?_, ?_, ?_, ?_⟩
        · simp only; omega
        · simp only; omega
        · intro c hcc
          rw [hre] at hcc
          injection hcc with hcc
          subst hcc
          simp only
          omega
        · intro c hcc
          have hd := hdr c hcc
          simp only
          omega
    · have hne : keyI x ≠ keyI e := hm2
      have hc2 : keyI e < keyI x := by omega
      simp only [attach, if_neg hc, retrace, if_neg hc, if_pos hc2]
      have ihr2 := ihr (cd.map Nat.pred) hr hm3
      cases hre : rootE (retrace keyI combI (attach keyI x r) (keyI x)
          (cd.map Nat.pred)) with
      | none =>
        simp only [hre]
        refine wa_node_iff.mpr ⟨hl, ihr2, he1, he2, hdl, ?_⟩
        intro c hcc
        rw [hre] at hcc
        cases hcc
      | some c0 =>
        simp only [hre, combI]
        refine wa_node_iff.mpr ⟨hl, ihr2, ?_, ?_, ?_, ?_⟩
        · simp only; omega
        · simp only; omega
        · intro c hcc
          have hd := hdl c hcc
          simp only
          omega
        · intro c hcc
          rw [hre] at hcc
          injection hcc with hcc
          subst hcc
          simp only
          omega

theorem insertIF_wa (t : GT IE) (iv : Int × Int) (d : Int)
    (hb : Bnd keyI none none t) (hw : WA t) : WA (insertIF t iv d).1 := by
  cases t with
  | nil =>
    simp only [insertIF, insertG, combI, mkIE, hdrIE]
    refine wa_node_iff.mpr ⟨trivial, trivial, ?_, ?_, ?_, ?_⟩
    · simp only; omega
    · simp only; omega
    · intro c h; simp [rootE] at h
    · intro c h; simp [rootE] at h
  | node l e b r =>
    simp only [insertIF, insertG]
    cases hd : dupFind keyI (GT.node l e b r) (keyI (mkIE iv.1 iv.2 d)) none with
    | some f => exact hw
    | none =>
      have hnm : keyI (mkIE iv.1 iv.2 d) ∉ keysG keyI (GT.node l e b r) :=
        (dupFind_none_iff keyI _ _ hb).mp hd
      have h1 := retrace_attach_wa (mkIE iv.1 iv.2 d) (le_refl _) (le_refl _)
        (GT.node l e b r)
        (unbalDepth keyI (GT.node l e b r) (keyI (mkIE iv.1 iv.2 d))) hw hnm
      cases hcd : unbalDepth keyI (GT.node l e b r) (keyI (mkIE iv.1 iv.2 d)) with
      | none => rw [hcd] at h1; exact h1
      | some d2 =>
        rw [hcd] at h1
        exact rebalAt_wa _ d2 _ h1

theorem buildI_wa (xs : List ((Int × Int) × Int)) : WA (buildI xs) := by
  have main : ∀ (ys : List ((Int × Int) × Int)) (t : GT IE),
      Bnd keyI none none t → WA t →
      WA (ys.foldl (fun t x => insertIT t x.1 x.2) t) := by
    intro ys
    induction ys with
    | nil => intro t _ hw; exact hw
    | cons y ys ih =>
      intro t hb hw
      exact ih _ (insertG_bnd keyI combI rotIL rotIR hdrIE
        (fun _ _ => rfl) rotIL_bnd rotIR_bnd t (mkIE y.1.1 y.1.2 y.2) hb)
        (insertIF_wa t y.1 y.2 hb hw)
  exact main xs .nil trivial trivial

/-! ## Non-emptiness of built interval trees -/

theorem attach_ne_nil (key : α → Int) (x : α) :
    ∀ t : GT α, attach key x t ≠ .nil := by
  intro t
  cases t with
  | nil => simp [attach]
  | node l e b r =>
    simp only [attach]
    split <;> simp

theorem retrace_ne_nil (key : α → Int) (comb : α → α → α) :
    ∀ (t : GT α) (k : Int) (cd : Option Nat), t ≠ .nil →
      retrace key comb t k cd ≠ .nil := by
  intro t k cd h
  cases t with
  | nil => exact absurd rfl h
  | node l e b r =>
    simp only [retrace]
    split <;> simp
    split <;> simp

theorem rotIL_ne_nil (t : GT IE) (h : t ≠ .nil) : rotIL t ≠ .nil := by
  cases t with
  | nil => exact absurd rfl h
  | node l e b r => cases r <;> simp [rotIL]

theorem rotIR_ne_nil (t : GT IE) (h : t ≠ .nil) : rotIR t ≠ .nil := by
  cases t with
  | nil => exact absurd rfl h
  | node l e b r => cases l <;> simp [rotIR]

theorem rebalG_ne_nil (t : GT IE) (h : t ≠ .nil) :
    (rebalG rotIL rotIR t).1 ≠ .nil := by
  cases t with
  | nil => exact absurd rfl h
  | node l e b r =>
    obtain ⟨c, hc, _, _⟩ := rebalG_root l e b r
    intro hnil
    rw [hnil] at hc
    simp [rootE] at hc

theorem rebalAt_ne_nil (k : Int) :
    ∀ (d : Nat) (t : GT IE), t ≠ .nil →
      (rebalAt rotIL rotIR keyI t k d).1 ≠ .nil := by
  intro d t h
  cases t with
  | nil => exact absurd rfl h
  | node l e b r =>
    obtain ⟨c, hc, _, _⟩ := rebalAt_root k d l e b r
    intro hnil
    rw [hnil] at hc
    simp [rootE] at hc

theorem insertIT_ne_nil (t : GT IE) (iv : Int × Int) (d : Int) :
    insertIT t iv d ≠ .nil := by
  cases t with
  | nil => simp [insertIT, insertIF, insertG]
  | node l e b r =>
    simp only [insertIT, insertIF, insertG]
    cases hd : dupFind keyI (GT.node l e b r) (keyI (mkIE iv.1 iv.2 d)) none with
    | some f => simp
    | none =>
      cases hcd : unbalDepth keyI (GT.node l e b r) (keyI (mkIE iv.1 iv.2 d)) with
      | none =>
        exact retrace_ne_nil keyI combI _ _ _ (attach_ne_nil keyI _ _)
      | some d2 =>
        exact rebalAt_ne_nil _ d2 _
          (retrace_ne_nil keyI combI _ _ _ (attach_ne_nil keyI _ _))

theorem buildI_cons_ne_nil (x : (Int × Int) × Int)
    (xs : List ((Int × Int) × Int)) : buildI (x :: xs) ≠ .nil := by
  have main : ∀ (ys : List ((Int × Int) × Int)) (t : GT IE), t ≠ .nil →
      ys.foldl (fun t x => insertIT t x.1 x.2) t ≠ .nil := by
    intro ys
    induction ys with
    | nil => intro t h; exact h
    | cons y ys ih => intro t _; exact ih _ (insertIT_ne_nil t y.1 y.2)
  exact main xs _ (insertIT_ne_nil .nil x.1 x.2)

/-! ## Query correctness: pruning is sound, reporting is exact -/

theorem qStep_msz (q : Int × Int) (l r : GT IE) (rest : List (GT IE)) :
    msz (qStep q l r rest) ≤ size l + size r + msz rest := by
  unfold qStep
  by_cases h1 : pushL q l <;> by_cases h2 : pushR q r <;>
    simp [h1, h2, msz] <;> omega

theorem pushL_ne_nil (q : Int × Int) (l : GT IE) (h : pushL q l = true) :
    l ≠ .nil := by
  cases l with
  | nil => simp [pushL] at h
  | node ll el bl rl => simp

theorem pushR_ne_nil (q : Int × Int) (r : GT IE) (h : pushR q r = true) :
    r ≠ .nil := by
  cases r with
  | nil => simp [pushR] at h
  | node rl er br rr => simp

theorem qStep_mem (q : Int × Int) (l r : GT IE) (rest : List (GT IE)) :
    ∀ u ∈ qStep q l r rest,
      (u = l ∧ pushL q l = true) ∨ (u = r ∧ pushR q r = true) ∨ u ∈ rest := by
  intro u hu
  unfold qStep at hu
  by_cases h1 : pushL q l <;> by_cases h2 : pushR q r <;>
    simp [h1, h2] at hu <;> tauto

theorem pruneL (q : Int × Int) (l : GT IE) (h : WA l) (hp : pushL q l = false) :
    queryExpected q l = [] := by
  cases l with
  | nil => rfl
  | node ll el bl rl =>
    simp only [pushL, decide_eq_false_iff_not] at hp
    refine List.filter_eq_nil_iff.mpr ?_
    intro p hp2
    simp only [entriesOf, List.mem_map] at hp2
    obtain ⟨x, hx, rfl⟩ := hp2
    have hb := wa_bound _ h el rfl x hx
    simp only [matchesQ, entE, overlapP, decide_eq_true_eq, not_and, not_lt]
    intro h1
    omega

theorem pruneR (q : Int × Int) (r : GT IE) (h : WA r) (hp : pushR q r = false) :
    queryExpected q r = [] := by
  cases r with
  | nil => rfl
  | node rl er br rr =>
    simp only [pushR, decide_eq_false_iff_not] at hp
    refine List.filter_eq_nil_iff.mpr ?_
    intro p hp2
    simp only [entriesOf, List.mem_map] at hp2
    obtain ⟨x, hx, rfl⟩ := hp2
    have hb := wa_bound _ h er rfl x hx
    simp only [matchesQ, entE, overlapP, decide_eq_true_eq, not_and, not_lt]
    intro h1
    omega

theorem queryExpected_node (q : Int × Int) (l : GT IE) (e : IE) (b : Int)
    (r : GT IE) :
    queryExpected q (.node l e b r) =
      queryExpected q l ++
        (if matchesQ q (entE e) then entE e :: queryExpected q r
         else queryExpected q r) := by
  simp only [queryExpected, entriesOf, elemsG, List.map_append, List.map_cons,
    List.filter_append, List.filter_cons]

theorem matchesQ_entE (q : Int × Int) (e : IE) :
    matchesQ q (entE e) = true ↔ overlapP q (e.lo, e.hi) := by
  simp [matchesQ, entE]

theorem qForward_spec (q : Int × Int) :
    ∀ (n : Nat) (st : List (GT IE)), msz st ≤ n →
      (∀ t ∈ st, t ≠ GT.nil ∧ WA t) →
      ∃ res, qForward q st = some res ∧
        (res : Multiset ((Int × Int) × Int)) =
          (st.map fun t =>
            ((queryExpected q t : List ((Int × Int) × Int)) :
              Multiset ((Int × Int) × Int))).sum := by
  intro n
  induction n with
  | zero =>
    intro st hm hp
    cases st with
    | nil => exact ⟨[], by simp [qForward], by simp⟩
    | cons t rest =>
      obtain ⟨hne, _⟩ := hp t (by simp)
      cases t with
      | nil => exact absurd rfl hne
      | node l e b r => simp [msz, size] at hm
  | succ n ih =>
    intro st hm hp
    cases st with
    | nil => exact ⟨[], by simp [qForward], by simp⟩
    | cons t rest =>
      obtain ⟨hne, hwt⟩ := hp t (by simp)
      cases t with
      | nil => exact absurd rfl hne
      | node l e b r =>
        obtain ⟨hl, hr, he1, he2, hdl, hdr⟩ := wa_node_iff.mp hwt
        have hp2 : ∀ u ∈ qStep q l r rest, u ≠ GT.nil ∧ WA u := by
          intro u hu
          rcases qStep_mem q l r rest u hu with ⟨rfl, hg⟩ | ⟨rfl, hg⟩ | hu2
          · exact ⟨pushL_ne_nil q u hg, hl⟩
          · exact ⟨pushR_ne_nil q u hg, hr⟩
          · exact hp u (by simp [hu2])
        have hm2 : msz (qStep q l r rest) ≤ n := by
          have h1 := qStep_msz q l r rest
          simp only [msz, size] at hm
          omega
        obtain ⟨res2, hres2, hsum2⟩ := ih (qStep q l r rest) hm2 hp2
        refine ⟨if overlapP q (e.lo, e.hi) then entE e :: res2 else res2, ?_, ?_⟩
        · simp only [qForward]
          rw [hres2]
        · rw [List.map_cons, List.sum_cons, queryExpected_node]
          cases hpl : pushL q l <;> cases hpr : pushR q r <;>
            simp only [qStep, hpl, hpr, if_true, if_false, Bool.false_eq_true,
              List.map_cons, List.sum_cons] at hsum2
          · rw [pruneL q l hl hpl, pruneR q r hr hpr]
            by_cases hov : overlapP q (e.lo, e.hi)
            · rw [if_pos hov, if_pos ((matchesQ_entE q e).mpr hov)]
              simp only [List.nil_append, ← Multiset.cons_coe,
                ← Multiset.singleton_add, hsum2]
              abel
            · rw [if_neg hov, if_neg (by
                intro hc
                exact hov ((matchesQ_entE q e).mp hc))]
              simp only [List.nil_append, Multiset.coe_nil, hsum2]
              abel
          · rw [pruneL q l hl hpl]
            by_cases hov : overlapP q (e.lo, e.hi)
            · rw [if_pos hov, if_pos ((matchesQ_entE q e).mpr hov)]
              simp only [List.nil_append, ← Multiset.cons_coe,
                ← Multiset.singleton_add, hsum2]
              abel
            · rw [if_neg hov, if_neg (by
                intro hc
                exact hov ((matchesQ_entE q e).mp hc))]
              simp only [List.nil_append, hsum2]
          · rw [pruneR q r hr hpr]
            by_cases hov : overlapP q (e.lo, e.hi)
            · rw [if_pos hov, if_pos ((matchesQ_entE q e).mpr hov)]
              simp only [← Multiset.coe_add, ← Multiset.cons_coe,
                ← Multiset.singleton_add, Multiset.coe_nil, hsum2]
              abel
            · rw [if_neg hov, if_neg (by
                intro hc
                exact hov ((matchesQ_entE q e).mp hc))]
              simp only [← Multiset.coe_add, Multiset.coe_nil, hsum2]
              abel
          · by_cases hov : overlapP q (e.lo, e.hi)
            · rw [if_pos hov, if_pos ((matchesQ_entE q e).mpr hov)]
              simp only [← Multiset.coe_add, ← Multiset.cons_coe,
                ← Multiset.singleton_add, hsum2]
              abel
            · rw [if_neg hov, if_neg (by
                intro hc
                exact hov ((matchesQ_entE q e).mp hc))]
              simp only [← Multiset.coe_add, hsum2]
              abel

/-! ## The traversal stack never exceeds the height bound -/

theorem chainU_nil {c : Nat} : ChainU c [] ↔ True := Iff.rfl

theorem chainU_cons {c : Nat} {t : GT IE} {rest : List (GT IE)} :
    ChainU c (t :: rest) ↔ t ≠ .nil ∧ hN t ≤ c ∧ ChainU (c + 1) rest := Iff.rfl

theorem sinv_nil {c : Nat} : SInv c [] ↔ True := Iff.rfl

theorem sinv_one {c : Nat} {t : GT IE} :
    SInv c [t] ↔ t ≠ .nil ∧ hN t ≤ c := Iff.rfl

theorem sinv_two {c : Nat} {t1 t2 : GT IE} {rest : List (GT IE)} :
    SInv c (t1 :: t2 :: rest) ↔
      t1 ≠ .nil ∧ hN t1 ≤ c ∧ t2 ≠ .nil ∧ hN t2 ≤ c ∧ ChainU (c + 1) rest :=
  Iff.rfl

theorem hN_pos (t : GT IE) (h : t ≠ .nil) : 1 ≤ hN t := by
  cases t with
  | nil => exact absurd rfl h
  | node l e b r => simp [hN]

theorem sinv_head {c : Nat} {t : GT IE} {rest : List (GT IE)}
    (h : SInv c (t :: rest)) : t ≠ .nil ∧ hN t ≤ c := by
  cases rest with
  | nil => exact sinv_one.mp h
  | cons t2 r2 =>
    obtain ⟨h1, h2, _, _, _⟩ := sinv_two.mp h
    exact ⟨h1, h2⟩

theorem sinv_chain {c : Nat} {t : GT IE} {rest : List (GT IE)}
    (h : SInv c (t :: rest)) : ChainU c rest := by
  cases rest with
  | nil => exact chainU_nil.mpr trivial
  | cons t2 r2 =>
    obtain ⟨_, _, h3, h4, h5⟩ := sinv_two.mp h
    exact chainU_cons.mpr ⟨h3, h4, h5⟩

theorem sinv_of_chain {c : Nat} :
    ∀ rest : List (GT IE), ChainU c rest → SInv (c + 1) rest := by
  intro rest h
  cases rest with
  | nil => exact sinv_nil.mpr trivial
  | cons t2 r2 =>
    obtain ⟨h1, h2, h3⟩ := chainU_cons.mp h
    cases r2 with
    | nil => exact sinv_one.mpr ⟨h1, by omega⟩
    | cons t3 r3 =>
      obtain ⟨h4, h5, h6⟩ := chainU_cons.mp h3
      exact sinv_two.mpr ⟨h1, by omega, h4, h5, h6⟩

theorem sinv_replace_head {c : Nat} {t u : GT IE} {rest : List (GT IE)}
    (h : SInv c (t :: rest)) (hu1 : u ≠ .nil) (hu2 : hN u ≤ c) :
    SInv c (u :: rest) := by
  cases rest with
  | nil => exact sinv_one.mpr ⟨hu1, hu2⟩
  | cons t2 r2 =>
    obtain ⟨_, _, h3, h4, h5⟩ := sinv_two.mp h
    exact sinv_two.mpr ⟨hu1, hu2, h3, h4, h5⟩

theorem qSpMax_bound (q : Int × Int) :
    ∀ (n : Nat) (st : List (GT IE)) (c H : Nat), msz st ≤ n →
      SInv c st → st.length + c ≤ H + 1 → 1 ≤ c →
      qSpMax q st ≤ H := by
  intro n
  induction n with
  | zero =>
    intro st c H hm hs hl hc
    cases st with
    | nil => simp [qSpMax]
    | cons t rest =>
      have ht := sinv_head hs
      cases t with
      | nil => exact absurd rfl ht.1
      | node l e b r => simp [msz, size] at hm
  | succ n ih =>
    intro st c H hm hs hl hc
    cases st with
    | nil => simp [qSpMax]
    | cons t rest =>
      have ht := sinv_head hs
      cases t with
      | nil => exact absurd rfl ht.1
      | node l e b r =>
        have hhn : hN (GT.node l e b r) ≤ c := ht.2
        have hmax : hN (GT.node l e b r) = max (hN l) (hN r) + 1 := rfl
        simp only [qSpMax]
        refine max_le ?_ ?_
        · simp only [List.length_cons] at hl ⊢
          omega
        · have hm2 : msz (qStep q l r rest) ≤ n := by
            have hq := qStep_msz q l r rest
            simp only [msz, size] at hm
            omega
          simp only [List.length_cons] at hl
          cases hpl : pushL q l <;> cases hpr : pushR q r
          · have hstep : qStep q l r rest = rest := by simp [qStep, hpl, hpr]
            rw [hstep] at hm2 ⊢
            refine ih rest (c + 1) H hm2 (sinv_of_chain rest (sinv_chain hs))
              (by omega) (by omega)
          · have hstep : qStep q l r rest = r :: rest := by
              simp [qStep, hpl, hpr]
            rw [hstep] at hm2 ⊢
            have hrn := pushR_ne_nil q r hpr
            have hr1 : 1 ≤ hN r := hN_pos r hrn
            refine ih (r :: rest) c H hm2
              (sinv_replace_head hs hrn (by omega)) (by simpa using hl)
              (by omega)
          · have hstep : qStep q l r rest = l :: rest := by
              simp [qStep, hpl, hpr]
            rw [hstep] at hm2 ⊢
            have hln := pushL_ne_nil q l hpl
            have hl1 : 1 ≤ hN l := hN_pos l hln
            refine ih (l :: rest) c H hm2
              (sinv_replace_head hs hln (by omega)) (by simpa using hl)
              (by omega)
          · have hstep : qStep q l r rest = r :: l :: rest := by
              simp [qStep, hpl, hpr]
            rw [hstep] at hm2 ⊢
            have hln := pushL_ne_nil q l hpl
            have hrn := pushR_ne_nil q r hpr
            have hl1 : 1 ≤ hN l := hN_pos l hln
            have hr1 : 1 ≤ hN r := hN_pos r hrn
            refine ih (r :: l :: rest) (c - 1) H hm2
              (sinv_two.mpr ⟨hrn, by omega, hln, by omega, ?_⟩)
              (by simp only [List.length_cons]; omega) (by omega)
            have hch := sinv_chain hs
            have hc1 : c - 1 + 1 = c := by omega
            rw [hc1]
            exact hch

/-! ## The AVL invariant: bridge between the path composite and `insRA` -/

theorem avlOk_nil_iff : AvlOk (.nil : GT α) ↔ True := Iff.rfl

theorem avlOk_node_iff {l : GT α} {e : α} {b : Int} {r : GT α} :
    AvlOk (.node l e b r) ↔
      AvlOk l ∧ AvlOk r ∧ b = (hN r : Int) - (hN l : Int) ∧
        -1 ≤ b ∧ b ≤ 1 := Iff.rfl

theorem rebalG_noop (ro_l ro_r : GT α → GT α) (l : GT α) (e : α) (b : Int)
    (r : GT α) (h2 : b ≠ 2) (hm : b ≠ -2) :
    rebalG ro_l ro_r (.node l e b r) = (.node l e b r, 0) := by
  show (if b = 2 then _ else if b = -2 then _ else ((GT.node l e b r), 0)) = _
  rw [if_neg h2, if_neg hm]

theorem rebalG_count (ro_l ro_r : GT α → GT α) :
    ∀ t : GT α, (rebalG ro_l ro_r t).2 ≤ 2 := by
  intro t
  cases t with
  | nil => simp [rebalG]
  | node l e b r =>
    unfold rebalG
    by_cases hb2 : b = 2
    · simp only [hb2, if_pos rfl]
      cases r with
      | nil => simp
      | node rl2 f c rr2 =>
        by_cases hc : c = 1
        · simp [if_pos hc]
        · simp only [if_neg hc]
          cases rl2 with
          | nil => simp
          | node a w wb d => simp
    · by_cases hbm : b = -2
      · simp only [if_neg hb2, hbm, if_pos rfl]
        cases l with
        | nil => simp
        | node ll f c lr =>
          by_cases hc : c = -1
          · simp [if_pos hc]
          · simp only [if_neg hc]
            cases lr with
            | nil => simp
            | node a w wb d => simp
      · simp [if_neg hb2, if_neg hbm]

theorem rebalAt_count (ro_l ro_r : GT α → GT α) (key : α → Int) (k : Int) :
    ∀ (d : Nat) (t : GT α), (rebalAt ro_l ro_r key t k d).2 ≤ 2 := by
  intro d
  induction d with
  | zero =>
    intro t
    cases t with
    | nil => simp only [rebalAt]; exact rebalG_count ro_l ro_r _
    | node l e b r => simp only [rebalAt]; exact rebalG_count ro_l ro_r _
  | succ d ih =>
    intro t
    cases t with
    | nil => simp [rebalAt]
    | node l e b r =>
      simp only [rebalAt]
      by_cases hcmp : k < key e
      · simp only [if_pos hcmp]; exact ih l
      · simp only [if_neg hcmp]; exact ih r

theorem insertG_rots_le (key : α → Int) (comb : α → α → α)
    (ro_l ro_r : GT α → GT α) (hdrE : α) (t : GT α) (x : α) :
    (insertG key comb ro_l ro_r hdrE t x).2.2 ≤ 2 := by
  cases t with
  | nil => simp [insertG]
  | node l e b r =>
    simp only [insertG]
    cases hd : dupFind key (GT.node l e b r) (key x) none with
    | some f => simp
    | none =>
      cases hcd : unbalDepth key (GT.node l e b r) (key x) with
      | none => simp
      | some d => exact rebalAt_count ro_l ro_r key (key x) d _

theorem retrace_some_zero (key : α → Int) (comb : α → α → α) :
    ∀ (t : GT α) (k : Int),
      retrace key comb t k (some 0) = retrace key comb t k none := by
  intro t
  induction t with
  | nil => intro k; rfl
  | node l e b r ihl ihr =>
    intro k
    simp only [retrace, Option.map_some', Option.map_none', Nat.pred_zero,
      ihl k, ihr k]
    simp

theorem insertPath_eq_insRA :
    ∀ (t : GT AE) (k v : Int), k ∉ keysG keyA t →
      (unbalDepth keyA t k = none →
        retrace keyA combA (attach keyA (k, v) t) k none = (insRA t k v).1 ∧
          (insRA t k v).2 = true) ∧
      (∀ d, unbalDepth keyA t k = some d →
        (rebalAt rotL rotR keyA
            (retrace keyA combA (attach keyA (k, v) t) k (some d)) k d).1 =
          (insRA t k v).1 ∧ (insRA t k v).2 = false) := by
  intro t
  induction t with
  | nil =>
    intro k v _
    constructor
    · intro _
      constructor
      · simp [attach, retrace, insRA, keyA]
      · simp [insRA]
    · intro d hd
      simp [unbalDepth] at hd
  | node l e b r ihl ihr =>
    intro k v hmem
    rw [keysG_node] at hmem
    simp only [List.mem_append, List.mem_cons] at hmem
    push_neg at hmem
    obtain ⟨hm1, hm2, hm3⟩ := hmem
    by_cases hc : k < keyA e
    · -- descent goes left
      have hc' : keyA (k, v) < keyA e := hc
      have hat : attach keyA (k, v) (GT.node l e b r) =
          GT.node (attach keyA (k, v) l) e b r := by
        simp only [attach, if_pos hc']
      have hretr : ∀ m : Nat,
          retrace keyA combA (GT.node (attach keyA (k, v) l) e b r) k
              (some (m + 1)) =
            GT.node (retrace keyA combA (attach keyA (k, v) l) k (some m))
              e b r := by
        intro m
        simp only [retrace, if_pos hc, Option.map_some', Nat.pred_succ]
        rw [if_neg (show ¬((some (m + 1) : Option Nat) = none ∨
          (some (m + 1) : Option Nat) = some 0) by simp)]
        cases hru : rootE (retrace keyA combA (attach keyA (k, v) l) k
          (some m)) <;> rfl
      have hreb : ∀ (u : GT AE) (m : Nat),
          rebalAt rotL rotR keyA (GT.node u e b r) k (m + 1) =
            ((GT.node (rebalAt rotL rotR keyA u k m).1 e b r),
              (rebalAt rotL rotR keyA u k m).2) := by
        intro u m
        simp only [rebalAt, if_pos hc]
      have hudp : unbalDepth keyA (GT.node l e b r) k =
          match unbalDepth keyA l k with
          | some d => some (d + 1)
          | none => if b ≠ 0 then some 0 else none := by
        simp only [unbalDepth, if_pos hc]
      have hins : insRA (GT.node l e b r) k v =
          (if (insRA l k v).2 then
            ((rebalG rotL rotR (.node (insRA l k v).1 e (b - 1) r)).1,
              decide (b = 0))
          else (.node (insRA l k v).1 e b r, false)) := by
        simp only [insRA, if_pos hc]
      cases hdl : unbalDepth keyA l k with
      | some dl =>
        have hIH := (ihl k v hm1).2 dl hdl
        rw [hdl] at hudp
        constructor
        · intro hnone
          rw [hnone] at hudp
          exact absurd hudp.symm (by simp)
        · intro d hd
          rw [hd] at hudp
          injection hudp with hudp
          subst hudp
          rw [hat, hretr dl, hreb, hins, if_neg (by rw [hIH.2]; simp)]
          exact ⟨by rw [hIH.1], rfl⟩
      | none =>
        have hIH := (ihl k v hm1).1 hdl
        rw [hdl] at hudp
        by_cases hb0 : b = 0
        · rw [if_neg (by simp [hb0])] at hudp
          constructor
          · intro _
            refine ⟨?_, by rw [hins, if_pos hIH.2, hb0]; simp⟩
            rw [hat]
            simp only [retrace, if_pos hc, Option.map_none', true_or,
              if_true]
            rw [hIH.1, hins, if_pos hIH.2, hb0]
            rw [rebalG_noop rotL rotR _ _ _ _ (by omega) (by omega)]
            cases hru : rootE (insRA l k v).1 <;> rfl
          · intro d hd
            rw [hudp] at hd
            exact absurd hd (by simp)
        · rw [if_pos hb0] at hudp
          constructor
          · intro hnone
            rw [hnone] at hudp
            exact absurd hudp.symm (by simp)
          · intro d hd
            rw [hd] at hudp
            injection hudp with hudp
            subst hudp
            refine ⟨?_, by rw [hins, if_pos hIH.2]; simp [hb0]⟩
            rw [hat]
            simp only [rebalAt]
            simp only [retrace, if_pos hc, Option.map_some', Nat.pred_zero,
              retrace_some_zero, or_true, if_true]
            rw [hIH.1, hins, if_pos hIH.2]
            cases hru : rootE (insRA l k v).1 <;> rfl
    · by_cases hc2 : keyA e < k
      · -- descent goes right (mirror)
        have hat : attach keyA (k, v) (GT.node l e b r) =
            GT.node l e b (attach keyA (k, v) r) := by
          simp only [attach]
          rw [if_neg (show ¬keyA (k, v) < keyA e from hc)]
        have hretr : ∀ m : Nat,
            retrace keyA combA (GT.node l e b (attach keyA (k, v) r)) k
                (some (m + 1)) =
              GT.node l e b
                (retrace keyA combA (attach keyA (k, v) r) k (some m)) := by
          intro m
          simp only [retrace, if_neg hc, if_pos hc2, Option.map_some',
            Nat.pred_succ]
          rw [if_neg (show ¬((some (m + 1) : Option Nat) = none ∨
            (some (m + 1) : Option Nat) = some 0) by simp)]
          cases hru : rootE (retrace keyA combA (attach keyA (k, v) r) k
            (some m)) <;> rfl
        have hreb : ∀ (u : GT AE) (m : Nat),
            rebalAt rotL rotR keyA (GT.node l e b u) k (m + 1) =
              ((GT.node l e b (rebalAt rotL rotR keyA u k m).1),
                (rebalAt rotL rotR keyA u k m).2) := by
          intro u m
          simp only [rebalAt, if_neg hc]
        have hudp : unbalDepth keyA (GT.node l e b r) k =
            match unbalDepth keyA r k with
            | some d => some (d + 1)
            | none => if b ≠ 0 then some 0 else none := by
          simp only [unbalDepth, if_neg hc]
        have hins : insRA (GT.node l e b r) k v =
            (if (insRA r k v).2 then
              ((rebalG rotL rotR (.node l e (b + 1) (insRA r k v).1)).1,
                decide (b = 0))
            else (.node l e b (insRA r k v).1, false)) := by
          simp only [insRA, if_neg hc, if_pos hc2]
        cases hdr : unbalDepth keyA r k with
        | some dr =>
          have hIH := (ihr k v hm3).2 dr hdr
          rw [hdr] at hudp
          constructor
          · intro hnone
            rw [hnone] at hudp
            exact absurd hudp.symm (by simp)
          · intro d hd
            rw [hd] at hudp
            injection hudp with hudp
            subst hudp
            rw [hat, hretr dr, hreb, hins, if_neg (by rw [hIH.2]; simp)]
            exact ⟨by rw [hIH.1], rfl⟩
        | none =>
          have hIH := (ihr k v hm3).1 hdr
          rw [hdr] at hudp
          by_cases hb0 : b = 0
          · rw [if_neg (by simp [hb0])] at hudp
            constructor
            · intro _
              refine ⟨?_, by rw [hins, if_pos hIH.2, hb0]; simp⟩
              rw [hat]
              simp only [retrace, if_neg hc, if_pos hc2, Option.map_none',
                true_or, if_true]
              rw [hIH.1, hins, if_pos hIH.2, hb0]
              rw [rebalG_noop rotL rotR _ _ _ _ (by omega) (by omega)]
              cases hru : rootE (insRA r k v).1 <;> rfl
            · intro d hd
              rw [hudp] at hd
              exact absurd hd (by simp)
          · rw [if_pos hb0] at hudp
            constructor
            · intro hnone
              rw [hnone] at hudp
              exact absurd hudp.symm (by simp)
            · intro d hd
              rw [hd] at hudp
              injection hudp with hudp
              subst hudp
              refine ⟨?_, by rw [hins, if_pos hIH.2]; simp [hb0]⟩
              rw [hat]
              simp only [rebalAt]
              simp only [retrace, if_neg hc, if_pos hc2, Option.map_some',
                Nat.pred_zero, retrace_some_zero, or_true, if_true]
              rw [hIH.1, hins, if_pos hIH.2]
              cases hru : rootE (insRA r k v).1 <;> rfl
      · exact absurd (by omega : k = keyA e) hm2

/-- At a node that just became `-2` after its left subtree grew, the
`_rebalance` fixup (single or double rotation as the source selects it)
restores the AVL invariant and the pre-insertion height. -/
theorem rebal_m2 (ll : GT AE) (f : AE) (c : Int) (lr : GT AE) (e : AE)
    (r : GT AE) (hok : AvlOk (GT.node ll f c lr)) (hokr : AvlOk r)
    (hh : hN (GT.node ll f c lr) = hN r + 2) (hc : c ≠ 0) :
    AvlOk (rebalG rotL rotR (GT.node (GT.node ll f c lr) e (-2) r)).1 ∧
      hN (rebalG rotL rotR (GT.node (GT.node ll f c lr) e (-2) r)).1 =
        hN r + 2 := by
  obtain ⟨hll, hlr, hceq, hc1, hc2⟩ := avlOk_node_iff.mp hok
  simp only [hN] at hh
  have hcc : c = -1 ∨ c = 1 := by omega
  rcases hcc with hc' | hc'
  · subst hc'
    have h1 : rebalG rotL rotR (GT.node (GT.node ll f (-1) lr) e (-2) r) =
        (GT.node ll f 0 (GT.node lr e 0 r), 1) := by
      simp [rebalG, rotR]
    rw [h1]
    constructor
    · simp only [avlOk_node_iff, hN]
      exact ⟨hll, ⟨hlr, hokr, by omega, by omega, by omega⟩,
        by omega, by omega, by omega⟩
    · simp only [hN]; omega
  · subst hc'
    cases lr with
    | nil =>
      exfalso
      simp only [hN] at hceq
      omega
    | node a w wb d =>
      obtain ⟨ha, hd, hwb, hwb1, hwb2⟩ := avlOk_node_iff.mp hlr
      simp only [hN] at hceq hh hwb
      have hwbc : wb = -1 ∨ wb = 0 ∨ wb = 1 := by omega
      rcases hwbc with hw | hw | hw
      all_goals subst hw
      · have h1 : rebalG rotL rotR
            (GT.node (GT.node ll f 1 (GT.node a w (-1) d)) e (-2) r) =
            (GT.node (GT.node ll f 0 a) w 0 (GT.node d e 1 r), 2) := by
          simp [rebalG, rotL, rotR]
        rw [h1]
        constructor
        · simp only [avlOk_node_iff, hN]
          exact ⟨⟨hll, ha, by omega, by omega, by omega⟩,
            ⟨hd, hokr, by omega, by omega, by omega⟩,
            by omega, by omega, by omega⟩
        · simp only [hN]; omega
      · have h1 : rebalG rotL rotR
            (GT.node (GT.node ll f 1 (GT.node a w 0 d)) e (-2) r) =
            (GT.node (GT.node ll f 0 a) w 0 (GT.node d e 0 r), 2) := by
          simp [rebalG, rotL, rotR]
        rw [h1]
        constructor
        · simp only [avlOk_node_iff, hN]
          exact ⟨⟨hll, ha, by omega, by omega, by omega⟩,
            ⟨hd, hokr, by omega, by omega, by omega⟩,
            by omega, by omega, by omega⟩
        · simp only [hN]; omega
      · have h1 : rebalG rotL rotR
            (GT.node (GT.node ll f 1 (GT.node a w 1 d)) e (-2) r) =
            (GT.node (GT.node ll f (-1) a) w 0 (GT.node d e 0 r), 2) := by
          simp [rebalG, rotL, rotR]
        rw [h1]
        constructor
        · simp only [avlOk_node_iff, hN]
          exact ⟨⟨hll, ha, by omega, by omega, by omega⟩,
            ⟨hd, hokr, by omega, by omega, by omega⟩,
            by omega, by omega, by omega⟩
        · simp only [hN]; omega

/-- Mirror of `rebal_m2`: the `+2` fixup after the right subtree grew. -/
theorem rebal_p2 (l : GT AE) (e : AE) (rl2 : GT AE) (f : AE) (c : Int)
    (rr2 : GT AE) (hokl : AvlOk l) (hok : AvlOk (GT.node rl2 f c rr2))
    (hh : hN (GT.node rl2 f c rr2) = hN l + 2) (hc : c ≠ 0) :
    AvlOk (rebalG rotL rotR (GT.node l e 2 (GT.node rl2 f c rr2))).1 ∧
      hN (rebalG rotL rotR (GT.node l e 2 (GT.node rl2 f c rr2))).1 =
        hN l + 2 := by
  obtain ⟨hrl, hrr, hceq, hc1, hc2⟩ := avlOk_node_iff.mp hok
  simp only [hN] at hh
  have hcc : c = -1 ∨ c = 1 := by omega
  rcases hcc with hc' | hc'
  · subst hc'
    cases rl2 with
    | nil =>
      exfalso
      simp only [hN] at hceq
      omega
    | node a w wb d =>
      obtain ⟨ha, hd, hwb, hwb1, hwb2⟩ := avlOk_node_iff.mp hrl
      simp only [hN] at hceq hh hwb
      have hwbc : wb = -1 ∨ wb = 0 ∨ wb = 1 := by omega
      rcases hwbc with hw | hw | hw
      all_goals subst hw
      · have h1 : rebalG rotL rotR
            (GT.node l e 2 (GT.node (GT.node a w (-1) d) f (-1) rr2)) =
            (GT.node (GT.node l e 0 a) w 0 (GT.node d f 1 rr2), 2) := by
          simp [rebalG, rotL, rotR]
        rw [h1]
        constructor
        · simp only [avlOk_node_iff, hN]
          exact ⟨⟨hokl, ha, by omega, by omega, by omega⟩,
            ⟨hd, hrr, by omega, by omega, by omega⟩,
            by omega, by omega, by omega⟩
        · simp only [hN]; omega
      · have h1 : rebalG rotL rotR
            (GT.node l e 2 (GT.node (GT.node a w 0 d) f (-1) rr2)) =
            (GT.node (GT.node l e 0 a) w 0 (GT.node d f 0 rr2), 2) := by
          simp [rebalG, rotL, rotR]
        rw [h1]
        constructor
        · simp only [avlOk_node_iff, hN]
          exact ⟨⟨hokl, ha, by omega, by omega, by omega⟩,
            ⟨hd, hrr, by omega, by omega, by omega⟩,
            by omega, by omega, by omega⟩
        · simp only [hN]; omega
      · have h1 : rebalG rotL rotR
            (GT.node l e 2 (GT.node (GT.node a w 1 d) f (-1) rr2)) =
            (GT.node (GT.node l e (-1) a) w 0 (GT.node d f 0 rr2), 2) := by
          simp [rebalG, rotL, rotR]
        rw [h1]
        constructor
        · simp only [avlOk_node_iff, hN]
          exact ⟨⟨hokl, ha, by omega, by omega, by omega⟩,
            ⟨hd, hrr, by omega, by omega, by omega⟩,
            by omega, by omega, by omega⟩
        · simp only [hN]; omega
  · subst hc'
    have h1 : rebalG rotL rotR
        (GT.node l e 2 (GT.node rl2 f 1 rr2)) =
        (GT.node (GT.node l e 0 rl2) f 0 rr2, 1) := by
      simp [rebalG, rotL]
    rw [h1]
    constructor
    · simp only [avlOk_node_iff, hN]
      exact ⟨⟨hokl, hrl, by omega, by omega, by omega⟩, hrr,
        by omega, by omega, by omega⟩
    · simp only [hN]; omega

/-- `insRA` preserves the AVL invariant, and its grow flag does the exact
height bookkeeping of the source algorithm: the subtree height rises by one
iff the flag is set, in which case a grown subtree of height at least 2 is
never perfectly balanced at its root. -/
theorem insRA_ok : ∀ (t : GT AE) (k v : Int), AvlOk t →
    AvlOk (insRA t k v).1 ∧
      ((insRA t k v).2 = true → hN (insRA t k v).1 = hN t + 1 ∧
        (1 < hN (insRA t k v).1 → balOf (insRA t k v).1 ≠ 0)) ∧
      ((insRA t k v).2 = false → hN (insRA t k v).1 = hN t) := by
  intro t
  induction t with
  | nil =>
    intro k v _
    refine ⟨⟨trivial, trivial, by simp [hN], by norm_num, by norm_num⟩,
      fun _ => ⟨by simp [hN], ?_⟩, by simp [insRA]⟩
    simp [insRA, hN]
  | node l e b r ihl ihr =>
    intro k v hok
    obtain ⟨hokl, hokr, hbeq, hb1, hb2⟩ := avlOk_node_iff.mp hok
    by_cases hc : k < keyA e
    · obtain ⟨ihok, ihtrue, ihfalse⟩ := ihl k v hokl
      have hstep : insRA (GT.node l e b r) k v =
          (if (insRA l k v).2 then
            ((rebalG rotL rotR
              (.node (insRA l k v).1 e (b - 1) r)).1, decide (b = 0))
          else (.node (insRA l k v).1 e b r, false)) := by
        simp only [insRA, if_pos hc]
      cases hp : (insRA l k v).2 with
      | false =>
        have hfin : insRA (GT.node l e b r) k v =
            (.node (insRA l k v).1 e b r, false) := by
          rw [hstep, if_neg (by simp [hp])]
        have hh := ihfalse hp
        rw [hfin]
        refine ⟨avlOk_node_iff.mpr ⟨ihok, hokr, by rw [hh]; exact hbeq,
          hb1, hb2⟩, by simp, fun _ => ?_⟩
        simp only [hN, hh]
      | true =>
        obtain ⟨hgrow, hbal⟩ := ihtrue hp
        have hfin : insRA (GT.node l e b r) k v =
            ((rebalG rotL rotR
              (.node (insRA l k v).1 e (b - 1) r)).1, decide (b = 0)) := by
          rw [hstep, if_pos hp]
        have hbb : b = -1 ∨ b = 0 ∨ b = 1 := by omega
        rcases hbb with hb | hb | hb
        all_goals subst hb
        · cases hp1 : (insRA l k v).1 with
          | nil =>
            rw [hp1] at hgrow
            simp only [hN] at hgrow
            omega
          | node pl pf pc pr =>
            rw [hp1] at hgrow hbal ihok
            have hlpos : 1 ≤ hN l := by omega
            have hc' : pc ≠ 0 := by
              have h2 := hbal (by rw [hgrow]; omega)
              simpa [balOf] using h2
            have hh' : hN (GT.node pl pf pc pr) = hN r + 2 := by
              simp only [hN] at hbeq hgrow ⊢
              omega
            rw [hfin, hp1, show ((-1 : Int) - 1) = -2 by norm_num]
            have hreb := rebal_m2 pl pf pc pr e r ihok hokr hh' hc'
            refine ⟨hreb.1, by simp, fun _ => ?_⟩
            rw [hreb.2]
            simp only [hN] at hbeq ⊢
            omega
        · rw [hfin, show ((0 : Int) - 1) = -1 by norm_num,
            rebalG_noop rotL rotR _ _ _ _ (by norm_num) (by norm_num)]
          refine ⟨avlOk_node_iff.mpr ⟨ihok, hokr, ?_, by norm_num,
            by norm_num⟩, fun _ => ⟨?_, fun _ => by simp [balOf]⟩, by simp⟩
          · rw [hgrow]; push_cast; omega
          · simp only [hN, hgrow]
            omega
        · rw [hfin, show ((1 : Int) - 1) = 0 by norm_num,
            rebalG_noop rotL rotR _ _ _ _ (by norm_num) (by norm_num)]
          refine ⟨avlOk_node_iff.mpr ⟨ihok, hokr, ?_, by norm_num,
            by norm_num⟩, by simp, fun _ => ?_⟩
          · rw [hgrow]; push_cast; omega
          · simp only [hN, hgrow]
            omega
    · by_cases hc2 : keyA e < k
      · obtain ⟨ihok, ihtrue, ihfalse⟩ := ihr k v hokr
        have hstep : insRA (GT.node l e b r) k v =
            (if (insRA r k v).2 then
              ((rebalG rotL rotR
                (.node l e (b + 1) (insRA r k v).1)).1, decide (b = 0))
            else (.node l e b (insRA r k v).1, false)) := by
          simp only [insRA, if_neg hc, if_pos hc2]
        cases hp : (insRA r k v).2 with
        | false =>
          have hfin : insRA (GT.node l e b r) k v =
              (.node l e b (insRA r k v).1, false) := by
            rw [hstep, if_neg (by simp [hp])]
          have hh := ihfalse hp
          rw [hfin]
          refine ⟨avlOk_node_iff.mpr ⟨hokl, ihok, by rw [hh]; exact hbeq,
            hb1, hb2⟩, by simp, fun _ => ?_⟩
          simp only [hN, hh]
        | true =>
          obtain ⟨hgrow, hbal⟩ := ihtrue hp
          have hfin : insRA (GT.node l e b r) k v =
              ((rebalG rotL rotR
                (.node l e (b + 1) (insRA r k v).1)).1, decide (b = 0)) := by
            rw [hstep, if_pos hp]
          have hbb : b = -1 ∨ b = 0 ∨ b = 1 := by omega
          rcases hbb with hb | hb | hb
          all_goals subst hb
          · rw [hfin, show ((-1 : Int) + 1) = 0 by norm_num,
              rebalG_noop rotL rotR _ _ _ _ (by norm_num) (by norm_num)]
            refine ⟨avlOk_node_iff.mpr ⟨hokl, ihok, ?_, by norm_num,
              by norm_num⟩, by simp, fun _ => ?_⟩
            · rw [hgrow]; push_cast; omega
            · simp only [hN, hgrow]
              omega
          · rw [hfin, show ((0 : Int) + 1) = 1 by norm_num,
              rebalG_noop rotL rotR _ _ _ _ (by norm_num) (by norm_num)]
            refine ⟨avlOk_node_iff.mpr ⟨hokl, ihok, ?_, by norm_num,
              by norm_num⟩, fun _ => ⟨?_, fun _ => by simp [balOf]⟩, by simp⟩
            · rw [hgrow]; push_cast; omega
            · simp only [hN, hgrow]
              omega
          · cases hp1 : (insRA r k v).1 with
            | nil =>
              rw [hp1] at hgrow
              simp only [hN] at hgrow
              omega
            | node pl pf pc pr =>
              rw [hp1] at hgrow hbal ihok
              have hrpos : 1 ≤ hN r := by omega
              have hc' : pc ≠ 0 := by
                have h2 := hbal (by rw [hgrow]; omega)
                simpa [balOf] using h2
              have hh' : hN (GT.node pl pf pc pr) = hN l + 2 := by
                simp only [hN] at hbeq hgrow ⊢
                omega
              rw [hfin, hp1, show ((1 : Int) + 1) = 2 by norm_num]
              have hreb := rebal_p2 l e pl pf pc pr hokl ihok hh' hc'
              refine ⟨hreb.1, by simp, fun _ => ?_⟩
              rw [hreb.2]
              simp only [hN] at hbeq ⊢
              omega
      · have hfin : insRA (GT.node l e b r) k v =
            (GT.node l e b r, false) := by
          simp only [insRA, if_neg hc, if_neg hc2]
        rw [hfin]
        exact ⟨hok, by simp, fun _ => rfl⟩

/-- `avl_tree<int,int>::insert` keeps every bound intact: specialization of
`insertG_bnd` to the `AVL` policies. -/
theorem insertA_bnd (t : GT AE) (x : AE) (h : Bnd keyA none none t) :
    Bnd keyA none none (insertA t x).1 :=
  insertG_bnd keyA combA rotL rotR (0, 0) (fun _ _ => rfl)
    (fun lo hi u hu => rotL_bnd keyA lo hi u hu)
    (fun lo hi u hu => rotR_bnd keyA lo hi u hu) t x h

/-- `avl_tree<int,int>::insert` preserves the AVL invariant: through the
bridge `insertPath_eq_insRA`, the attach/retrace/rebalance composite is the
recursive insertion `insRA`, which `insRA_ok` keeps balanced. -/
theorem insertA_ok (t : GT AE) (x : AE) (hbnd : Bnd keyA none none t)
    (hok : AvlOk t) : AvlOk (insertA t x).1 := by
  obtain ⟨k, v⟩ := x
  cases t with
  | nil =>
    exact avlOk_node_iff.mpr ⟨trivial, trivial, by simp [hN], by norm_num,
      by norm_num⟩
  | node l e b r =>
    have hk : keyA (k, v) = k := rfl
    simp only [insertA, insertG, hk]
    cases hd : dupFind keyA (GT.node l e b r) k none with
    | some f => exact hok
    | none =>
      have hnm : k ∉ keysG keyA (GT.node l e b r) :=
        (dupFind_none_iff keyA _ k hbnd).mp hd
      have hbr := insertPath_eq_insRA (GT.node l e b r) k v hnm
      have hio := insRA_ok (GT.node l e b r) k v hok
      cases hcd : unbalDepth keyA (GT.node l e b r) k with
      | none =>
        rw [(hbr.1 hcd).1]
        exact hio.1
      | some d =>
        rw [(hbr.2 d hcd).1]
        exact hio.1

/-- Every tree built by a sequence of insertions into an empty
`avl_tree<int,int>` satisfies the AVL invariant. -/
theorem buildA_ok (xs : List AE) : AvlOk (buildA xs) := by
  have main : ∀ (ys : List AE) (t : GT AE), Bnd keyA none none t →
      AvlOk t → AvlOk (ys.foldl (fun t x => (insertA t x).1) t) := by
    intro ys
    induction ys with
    | nil => intro t _ h; exact h
    | cons y ys ih =>
      intro t hb h
      simp only [List.foldl_cons]
      exact ih _ (insertA_bnd t y hb) (insertA_ok t y hb h)
  exact main xs .nil trivial trivial

/-! ## Iterator correctness (the walk from `begin()` to `end()`) -/

theorem elemsG_length : ∀ (t : GT α), (elemsG t).length = size t := by
  intro t
  induction t with
  | nil => rfl
  | node l e b r ihl ihr => simp [elemsG, size, ihl, ihr]; omega

/-- Descending to the leftmost node keeps the not-yet-visited payload list
intact, and focuses a node with an empty left subtree. -/
theorem leftmostZ_spec : ∀ (t : GT α) (ctx : List (FrameZ α))
    (p : List (FrameZ α) × GT α), leftmostZ ctx t = some p →
    remI p.1 p.2 = elemsG t ++ restC ctx ∧ p.2 ≠ .nil := by
  intro t
  induction t with
  | nil => intro ctx p hp; simp [leftmostZ] at hp
  | node l e b r ihl ihr =>
    intro ctx p hp
    cases l with
    | nil =>
      simp only [leftmostZ] at hp
      injection hp with hp
      subst hp
      exact ⟨by simp [remI, restC, elemsG], by simp⟩
    | node a w c d =>
      simp only [leftmostZ] at hp
      have h2 := ihl (⟨true, e, b, r⟩ :: ctx) p hp
      refine ⟨?_, h2.2⟩
      rw [h2.1]
      simp [restC, elemsG]

/-- `leftmostZ` succeeds on every nonempty subtree. -/
theorem leftmostZ_isSome : ∀ (t : GT α) (ctx : List (FrameZ α)), t ≠ .nil →
    (leftmostZ ctx t).isSome := by
  intro t
  induction t with
  | nil => intro ctx h; exact absurd rfl h
  | node l e b r ihl ihr =>
    intro ctx _
    cases l with
    | nil => simp [leftmostZ]
    | node a w c d =>
      simp only [leftmostZ]
      exact ihl (⟨true, e, b, r⟩ :: ctx) (by simp)

/-- Climbing pops the already-visited right-child frames: it returns the
first in-order successor recorded in the context, or `end()` exactly when no
payload remains there. -/
theorem climb_spec : ∀ (ctx : List (FrameZ α)) (l : GT α) (e : α) (b : Int)
    (r : GT α),
    (climb ctx l e b r = none → restC ctx = []) ∧
    (∀ p : List (FrameZ α) × GT α, climb ctx l e b r = some p →
      remI p.1 p.2 = restC ctx ∧ p.2 ≠ .nil) := by
  intro ctx
  induction ctx with
  | nil =>
    intro l e b r
    exact ⟨fun _ => rfl, fun p hp => by simp [climb] at hp⟩
  | cons f ctx2 ih =>
    intro l e b r
    obtain ⟨fl, pe, pb, sib⟩ := f
    cases fl with
    | true =>
      refine ⟨fun hp => by simp [climb] at hp, fun p hp => ?_⟩
      simp only [climb] at hp
      injection hp with hp
      subst hp
      exact ⟨by simp [remI, restC], by simp⟩
    | false =>
      refine ⟨fun hp => ?_, fun p hp => ?_⟩
      · simp only [climb] at hp
        simp only [restC]
        exact (ih sib pe pb (.node l e b r)).1 hp
      · simp only [climb] at hp
        have h2 := (ih sib pe pb (.node l e b r)).2 p hp
        exact ⟨by rw [h2.1]; simp [restC], h2.2⟩

/-- One `_avl_tree_increment` step consumes exactly the focused payload:
the remaining walk of the new position is the tail of the old one, and the
step returns `end()` exactly when that tail is empty. -/
theorem incrZ_spec : ∀ (ctx : List (FrameZ α)) (l : GT α) (e : α) (b : Int)
    (r : GT α),
    (incrZ ctx (.node l e b r) = none → elemsG r ++ restC ctx = []) ∧
    (∀ p : List (FrameZ α) × GT α, incrZ ctx (.node l e b r) = some p →
      remI p.1 p.2 = elemsG r ++ restC ctx ∧ p.2 ≠ .nil) := by
  intro ctx l e b r
  cases r with
  | nil =>
    refine ⟨fun hp => ?_, fun p hp => ?_⟩
    · simp only [incrZ] at hp
      simp only [elemsG, List.nil_append]
      exact (climb_spec ctx l e b .nil).1 hp
    · simp only [incrZ] at hp
      have h2 := (climb_spec ctx l e b .nil).2 p hp
      exact ⟨by rw [h2.1]; simp [elemsG], h2.2⟩
  | node a w c d =>
    refine ⟨fun hp => ?_, fun p hp => ?_⟩
    · simp only [incrZ] at hp
      have := leftmostZ_isSome (GT.node a w c d)
        (⟨false, e, b, l⟩ :: ctx) (by simp)
      rw [hp] at this
      simp at this
    · simp only [incrZ] at hp
      have h2 := leftmostZ_spec (GT.node a w c d)
        (⟨false, e, b, l⟩ :: ctx) p hp
      exact ⟨by rw [h2.1]; simp [restC], h2.2⟩

/-- Iterating with enough fuel from any reachable position visits exactly the
not-yet-visited payloads, in order. -/
theorem iterFrom_spec : ∀ (n : Nat) (ctx : List (FrameZ α)) (u : GT α),
    u ≠ .nil → (remI ctx u).length ≤ n →
    iterFrom n (some (ctx, u)) = remI ctx u := by
  intro n
  induction n with
  | zero =>
    intro ctx u hu hlen
    cases u with
    | nil => exact absurd rfl hu
    | node l e b r => simp [remI] at hlen
  | succ m ih =>
    intro ctx u hu hlen
    cases u with
    | nil => exact absurd rfl hu
    | node l e b r =>
      simp only [iterFrom]
      simp only [remI] at hlen ⊢
      cases hi : incrZ ctx (GT.node l e b r) with
      | none =>
        rw [(incrZ_spec ctx l e b r).1 hi]
        cases m <;> rfl
      | some p =>
        obtain ⟨hrem, hne⟩ := (incrZ_spec ctx l e b r).2 p hi
        obtain ⟨ctx2, u2⟩ := p
        rw [ih ctx2 u2 hne (by rw [hrem]; simpa using hlen), hrem]

/-- The in-order walk from `begin()` to `end()` via `_avl_tree_increment`
visits exactly the stored payloads, in in-order sequence. -/
theorem iterA_eq_elemsG (t : GT α) : iterA t = elemsG t := by
  cases ht : t with
  | nil => rfl
  | node l e b r =>
    rw [iterA]
    cases hp : leftmostZ ([] : List (FrameZ α)) (GT.node l e b r) with
    | none =>
      have := leftmostZ_isSome (GT.node l e b r) [] (by simp)
      rw [hp] at this
      simp at this
    | some p =>
      obtain ⟨hrem, hne⟩ := leftmostZ_spec (GT.node l e b r) [] p hp
      simp only [restC, List.append_nil] at hrem
      obtain ⟨ctx2, u2⟩ := p
      rw [iterFrom_spec (size (GT.node l e b r)) ctx2 u2 hne
        (by rw [hrem]; rw [elemsG_length]), hrem]

/-- The BST bounds make the in-order payload list strictly increasing in
keys. -/
theorem bnd_pairwise (key : α → Int) : ∀ (t : GT α) (lo hi : Option Int),
    Bnd key lo hi t →
    List.Pairwise (fun a c => key a < key c) (elemsG t) := by
  intro t
  induction t with
  | nil => intro lo hi _; simp [elemsG]
  | node l e b r ihl ihr =>
    intro lo hi h
    obtain ⟨h1, h2, hl, hr⟩ := h
    simp only [elemsG]
    rw [List.pairwise_append]
    refine ⟨ihl lo (some (key e)) hl, ?_, ?_⟩
    · rw [List.pairwise_cons]
      refine ⟨fun c hc => ?_, ihr (some (key e)) hi hr⟩
      exact (bnd_elem key r (some (key e)) hi hr c hc).1
    · intro a ha c hc
      have hae : key a < key e :=
        (bnd_elem key l lo (some (key e)) hl a ha).2
      simp only [List.mem_cons] at hc
      rcases hc with rfl | hc
      · exact hae
      · exact lt_trans hae (bnd_elem key r (some (key e)) hi hr c hc).1

/-! ## Claim theorems -/

/-- Claim C2 (code bug): after the very first insertion into an empty
interval tree, the updater walk starts at the header (the new leaf's parent),
folds the header's value-initialized annotation (0, 0) into the propagation,
and therefore stores `min(lo, 0)` / `max(hi, 0)` at the root instead of the
true subtree minimum/maximum.  Inserting the interval [5, 10) yields a stored
`min` annotation of 0 while the independent recomputation from a full subtree
walk gives 5. -/
theorem c2_first_insert_annotation_bug :
    rootMn (insertIT GT.nil (5, 10) 7) = some 0 ∧
    specMinLo (insertIT GT.nil (5, 10) 7) = some 5 ∧
    rootMx (insertIT GT.nil (5, 10) 7) = some 10 ∧
    (0 : Int) ≠ 5 := by
  decide

/-- Claim C5 (code bug): `equal_range` on an empty interval tree pushes the
null root pointer onto the traversal stack (`_stack[_sp++] = root`), and the
first `_forward` iteration pops it and dereferences `_node->_left`.  The
query therefore dereferences a null pointer instead of returning the empty
result. -/
theorem c5_empty_query_null_deref : equalRangeI GT.nil (0, 0) = none := by
  simp [equalRangeI, qForward]

/-- Claim C7 (code bug): the public `interval_tree::insert` is declared
`void` and discards the (handle, inserted) pair computed by
`Base_type::insert`, contradicting its own documentation comment (and the
claim).  The discarded pair itself is well-behaved: re-inserting the interval
[1, 5) with a different value reports `inserted = false` with the stored
entry as handle, and the public operation leaves the tree unchanged. -/
theorem c7_interval_insert_discards_result :
    (insertIF (insertIT GT.nil (1, 5) 10) (1, 5) 20).2.1 =
      (⟨1, 5, 5, 0, 10⟩, false) ∧
    insertIT (insertIT GT.nil (1, 5) 10) (1, 5) 20 = insertIT GT.nil (1, 5) 10 := by
  decide

theorem copyG_eq_and_spine (t : GT α) : copyG t = t ∧ copySpineM t = t := by
  induction t with
  | nil => exact ⟨rfl, rfl⟩
  | node l e b r ihl ihr =>
    refine ⟨?_, ?_⟩ <;> simp [copyG, copySpineM, ihl.1, ihl.2, ihr.1, ihr.2]

/-- Claim C6 (code bug): copy construction of an EMPTY tree memcpy's the
source header (`_header(o._header)`) and skips the fixup body because
`o._header._parent == NULL`, leaving the copy's `_left`/`_right` header links
pointing at the SOURCE tree's header node — so `copy.begin() != copy.end()`
and iteration walks into the source object.  For a non-empty source the
clone walk does produce a node-for-node copy preserving every key, value,
balance factor and augmentation field and the in-order relationship
(`copyG t = t` in this model). -/
theorem c6_copy_header_aliasing :
    (copyCtorHdr (GT.nil : GT IE)).left = HdrPtr.srcHdr ∧
    (copyCtorHdr (GT.nil : GT IE)).right = HdrPtr.srcHdr ∧
    ∀ t : GT IE, copyG t = t := by
  exact ⟨rfl, rfl, fun t => (copyG_eq_and_spine t).1⟩

/-- Claim C4 (confirmed): for both tree types, inserting an entry whose
primary key (the interval's low endpoint for the interval tree) equals the
key of a stored entry leaves the tree completely unchanged (size, structure
and all stored values), performs no rotation, and the underlying
`avl_tree::insert` reports `inserted = false` with the stored entry as the
returned handle — even when the new interval's high endpoint and value
differ.  Stated for every tree built by any insertion sequence. -/
theorem c4_duplicate_insert_noop :
    (∀ (xs : List AE) (k v' : Int), k ∈ keysG keyA (buildA xs) →
      ∃ v0 : Int,
        insertA (buildA xs) (k, v') = (buildA xs, ((k, v0), false), 0) ∧
        (k, v0) ∈ elemsG (buildA xs)) ∧
    (∀ (xs : List ((Int × Int) × Int)) (lo2 hi2 d2 : Int),
      lo2 ∈ keysG keyI (buildI xs) →
      ∃ e0 : IE,
        insertIF (buildI xs) (lo2, hi2) d2 = (buildI xs, (e0, false), 0) ∧
        e0.lo = lo2 ∧ e0 ∈ elemsG (buildI xs)) := by
  constructor
  · intro xs k v' hk
    have hb := buildA_bnd xs
    obtain ⟨e, hd, hke, hmem⟩ := dupFind_mem keyA (buildA xs) k hb hk
    obtain ⟨e1, e2⟩ := e
    have hke' : e1 = k := hke
    subst hke'
    refine ⟨e2, ?_, hmem⟩
    cases ht : buildA xs with
    | nil => rw [ht] at hk; simp [keysG, elemsG] at hk
    | node l e0 b r =>
      rw [ht] at hd
      simp only [insertA, insertG, keyA, hd]
  · intro xs lo2 hi2 d2 hk
    have hb := buildI_bnd xs
    obtain ⟨e, hd, hke, hmem⟩ := dupFind_mem keyI (buildI xs) lo2 hb hk
    refine ⟨e, ?_, hke, hmem⟩
    cases ht : buildI xs with
    | nil => rw [ht] at hk; simp [keysG, elemsG] at hk
    | node l e0 b r =>
      rw [ht] at hd
      simp only [insertIF, insertG, keyI, mkIE, hd]

/-- Witness for C4 at concrete inputs: the key 5 (resp. the low endpoint 3)
is stored, and re-insertion with a different value (resp. different high
endpoint and value) is the identity and reports `false`. -/
theorem c4_duplicate_insert_noop_witness :
    (5 ∈ keysG keyA (buildA [(5, 1)])) ∧
    (∃ v0 : Int,
      insertA (buildA [(5, 1)]) (5, 9) = (buildA [(5, 1)], ((5, v0), false), 0) ∧
      (5, v0) ∈ elemsG (buildA [(5, 1)])) ∧
    (3 ∈ keysG keyI (buildI [((3, 7), 1)])) ∧
    (∃ e0 : IE,
      insertIF (buildI [((3, 7), 1)]) (3, 9) 2 =
        (buildI [((3, 7), 1)], (e0, false), 0) ∧
      e0.lo = 3 ∧ e0 ∈ elemsG (buildI [((3, 7), 1)])) :=
  ⟨by decide, c4_duplicate_insert_noop.1 [(5, 1)] 5 9 (by decide),
   by decide, c4_duplicate_insert_noop.2 [((3, 7), 1)] 3 9 2 (by decide)⟩

/-- Claim C1 counterexample: for the EMPTY insertion sequence the claim
fails — the overlap query does not return the empty set of stored entries
but dereferences the null root pointer pushed onto the traversal stack
(modelled as `none`). -/
theorem c1_empty_build_counterexample :
    equalRangeI (buildI []) (0, 1) = none := by
  simp [buildI, equalRangeI, qForward]

/-- Claim C1 (corrected to non-empty insertion sequences): for every interval
tree built by at least one insertion and every query interval, the lazy
sequence produced by the overlap query is exactly — as a multiset, hence as a
set, with no false positives and no false negatives — the stored (interval,
value) entries satisfying the strict overlap predicate `a0 < hi ∧ lo < a1`,
for any insertion order. -/
theorem c1_overlap_query_exact :
    ∀ (x : (Int × Int) × Int) (xs : List ((Int × Int) × Int)) (q : Int × Int),
      ∃ res, equalRangeI (buildI (x :: xs)) q = some res ∧
        (res : Multiset ((Int × Int) × Int)) =
          ((queryExpected q (buildI (x :: xs)) : List ((Int × Int) × Int)) :
            Multiset ((Int × Int) × Int)) := by
  intro x xs q
  have hne := buildI_cons_ne_nil x xs
  have hwa := buildI_wa (x :: xs)
  obtain ⟨res, h1, h2⟩ := qForward_spec q (msz [buildI (x :: xs)])
    [buildI (x :: xs)] (le_refl _)
    (by
      intro t ht
      simp only [List.mem_singleton] at ht
      subst ht
      exact ⟨hne, hwa⟩)
  refine ⟨res, h1, ?_⟩
  rw [h2]
  simp

/-- Claim C10 counterexample: on the empty interval tree the point query
crashes on the null root pointer instead of reporting no intervals. -/
theorem c10_empty_tree_counterexample : equalRangeP GT.nil 7 = none := by
  simp [equalRangeP, equalRangeI, qForward]

/-- Claim C10 (corrected to non-empty trees): for every interval tree built
by at least one insertion and every key `k`, the point query `equal_range(k)`
is the overlap query for the degenerate interval `(k, k)` and reports exactly
the stored intervals with `lo < k ∧ k < hi` under the strict comparison —
an interval whose low or high endpoint equals `k` is never reported. -/
theorem c10_point_query_strict :
    ∀ (x : (Int × Int) × Int) (xs : List ((Int × Int) × Int)) (k : Int),
      equalRangeP (buildI (x :: xs)) k = equalRangeI (buildI (x :: xs)) (k, k) ∧
      ∃ res, equalRangeP (buildI (x :: xs)) k = some res ∧
        (res : Multiset ((Int × Int) × Int)) =
          (((entriesOf (buildI (x :: xs))).filter
              (fun p => decide (p.1.1 < k ∧ k < p.1.2)) :
            List ((Int × Int) × Int)) : Multiset ((Int × Int) × Int)) := by
  intro x xs k
  refine ⟨rfl, ?_⟩
  have hne := buildI_cons_ne_nil x xs
  have hwa := buildI_wa (x :: xs)
  obtain ⟨res, h1, h2⟩ := qForward_spec (k, k) (msz [buildI (x :: xs)])
    [buildI (x :: xs)] (le_refl _)
    (by
      intro t ht
      simp only [List.mem_singleton] at ht
      subst ht
      exact ⟨hne, hwa⟩)
  refine ⟨res, h1, ?_⟩
  rw [h2]
  have hfc : queryExpected (k, k) (buildI (x :: xs)) =
      (entriesOf (buildI (x :: xs))).filter
        (fun p => decide (p.1.1 < k ∧ k < p.1.2)) := by
    refine List.filter_congr ?_
    intro p _
    simp only [matchesQ, overlapP, decide_eq_decide]
    constructor
    · rintro ⟨ha, hb2⟩; exact ⟨hb2, ha⟩
    · rintro ⟨ha, hb2⟩; exact ⟨hb2, ha⟩
  rw [← hfc]
  simp

/-- Claim C9 (confirmed): `hN` counts height in nodes (empty tree 0, single
node 1), so a tree of edge-height at most 63 has `hN t ≤ 64`.  For every such
interval tree and every overlap query, the explicit traversal stack of
`_forward` holds at most `max 1 (hN t)` entries at any moment — that is, at
most edge-height + 1 entries (one entry, the pushed null root, for the empty
tree) — and the stack pointer therefore never exceeds the fixed capacity
`STACK_SIZE` (64): no out-of-bounds stack write occurs. -/
theorem c9_stack_bound (t : GT IE) (q : Int × Int) (h : hN t ≤ 64) :
    qSpMax q [t] ≤ max 1 (hN t) ∧ max 1 (hN t) ≤ STACK_SIZE := by
  constructor
  · cases t with
    | nil => simp [qSpMax]
    | node l e b r =>
      have h1 : 1 ≤ hN (GT.node l e b r) := hN_pos _ (by simp)
      have hb := qSpMax_bound q (msz [GT.node l e b r]) [GT.node l e b r]
        (hN (GT.node l e b r)) (hN (GT.node l e b r)) (le_refl _)
        (sinv_one.mpr ⟨by simp, le_refl _⟩)
        (by simp only [List.length_singleton]; omega) h1
      omega
  · simp only [STACK_SIZE]
    omega

/-- Witness for C9 at a concrete input: a two-node interval tree of
edge-height 1 (`hN = 2`). -/
theorem c9_stack_bound_witness :
    qSpMax (0, 6) [GT.node (GT.node GT.nil (⟨1, 4, 4, 1, 0⟩ : IE) 0 GT.nil)
        (⟨2, 5, 5, 1, 0⟩ : IE) (-1) GT.nil] ≤
      max 1 (hN (GT.node (GT.node GT.nil (⟨1, 4, 4, 1, 0⟩ : IE) 0 GT.nil)
        (⟨2, 5, 5, 1, 0⟩ : IE) (-1) GT.nil)) ∧
    max 1 (hN (GT.node (GT.node GT.nil (⟨1, 4, 4, 1, 0⟩ : IE) 0 GT.nil)
        (⟨2, 5, 5, 1, 0⟩ : IE) (-1) GT.nil)) ≤ STACK_SIZE :=
  c9_stack_bound
    (GT.node (GT.node GT.nil (⟨1, 4, 4, 1, 0⟩ : IE) 0 GT.nil)
      (⟨2, 5, 5, 1, 0⟩ : IE) (-1) GT.nil) (0, 6) (by decide)

/-- **C3** After every completed insertion into an `avl_tree<int,int>` built
by any sequence of insertions, every node's stored balance factor equals
height(right subtree) minus height(left subtree) and lies in {-1, 0, 1}
(so the height difference is at most 1), and the completed insertion
performed at most two rotations (the fixup `_rebalance` runs only at the
recorded rebalance candidate). -/
theorem c3_avl_invariant (xs : List AE) (x : AE) :
    AvlOk (buildA xs) ∧ AvlOk (insertA (buildA xs) x).1 ∧
      (insertA (buildA xs) x).2.2 ≤ 2 :=
  ⟨buildA_ok xs, insertA_ok (buildA xs) x (buildA_bnd xs) (buildA_ok xs),
    insertG_rots_le keyA combA rotL rotR (0, 0) (buildA xs) x⟩

/-- **C8** For every tree built by any sequence of insertions into an
`avl_tree<int,int>`, the in-order traversal from `begin()` to `end()` via
iterator increment visits exactly the stored entries, their keys are
strictly increasing under the ordering relation, and no two visited entries
share a primary key. -/
theorem c8_inorder_strictly_increasing (xs : List AE) :
    iterA (buildA xs) = elemsG (buildA xs) ∧
    List.Pairwise (fun a c => keyA a < keyA c) (iterA (buildA xs)) ∧
    List.Pairwise (fun a c => keyA a ≠ keyA c) (iterA (buildA xs)) := by
  refine ⟨iterA_eq_elemsG _, ?_, ?_⟩
  · rw [iterA_eq_elemsG]
    exact bnd_pairwise keyA (buildA xs) none none (buildA_bnd xs)
  · rw [iterA_eq_elemsG]
    exact (bnd_pairwise keyA (buildA xs) none none (buildA_bnd xs)).imp
      ne_of_lt

end AvlInterval
